import Mathlib

/-!
Verification of the dependency-aware recomputation engine (`GraphEngine`)
of the k8v repository, shallowly embedded from the TypeScript source
(`GraphEngine.computeNode`, `needsRecomputation`, `getDependencies`,
`getNodeInputs`, `computeGraph`, `topologicalSort`, `clearCache`).

Modelling conventions:
* Opaque JS runtime values flowing through ports are modelled as `Nat`
  (the engine only moves them around and tests presence).
* JS `Map` objects and plain-object records are modelled as association
  lists with first-match lookup and replace-in-place update, matching
  `Map.get`/`Map.set` semantics (a key is never duplicated by `set`).
* `async`/`await` is erased: per the spec the engine is single-threaded
  cooperative logic, so each operation is a pure state transformer over
  an `EngineState` (transient cache, durable store, clock).
* `Date.now()` is modelled by a `now : Nat` clock in the state that is
  advanced on each read, so distinct reads yield distinct timestamps.
* The external executor (`NodeExecutor.execute`) is a collaborator, not
  part of the core: its output computation is a parameter `exec`; the
  wrapping of outputs into a `ComputationResult` stamped with the node's
  current version token and the current time is kept, following the
  executor source (it returns `version: node.version, timestamp: Date.now()`).
* Executor invocations are recorded in an `execLog` so that theorems can
  speak about how often and with which inputs the executor was invoked.
* Unbounded recursion (JS would loop or blow the stack) is modelled with
  a fuel parameter; the out-of-fuel outcome `diverge` is distinct from a
  thrown error.  Thrown JS errors propagate while keeping all mutations
  performed so far, so the error outcome carries the graph and state at
  throw time.
* `GraphNode` keeps the fields the engine reads or writes (`id`,
  `version`, `lastComputed`) plus the opaque payloads `config` and
  `metadata` (needed to state frame conditions); the engine never
  inspects them, so they are modelled as opaque strings.  The canvas
  `position` field is engine-irrelevant and omitted.  `ComputationResult`
  keeps the fields the engine reads (`nodeId`, `outputs`, `version`,
  `timestamp`); the pass-through `schema`, `textOutput`,
  `graphicsOutput` fields are never inspected by the engine and are
  omitted.
-/

namespace K8v

/-- Opaque JS runtime values carried on ports. -/
abbrev Value := Nat

/-- A directed edge from a source node's output port to a target node's
input port (`Connection` in `types.ts`). -/
structure Connection where
  id : String
  sourceNodeId : String
  sourcePort : String
  targetNodeId : String
  targetPort : String
  deriving DecidableEq

/-- A computational node (`GraphNode` in `types.ts`); `config` and
`metadata` are opaque payloads the engine never inspects. -/
structure GraphNode where
  id : String
  version : String
  config : String
  metadata : String
  lastComputed : Option Nat
  deriving DecidableEq

/-- A graph of nodes and connections (`Graph` in `types.ts`). -/
structure Graph where
  id : String
  name : String
  nodes : List GraphNode
  connections : List Connection
  createdAt : Nat
  updatedAt : Nat
  deriving DecidableEq

/-- The result of computing one node (`ComputationResult` in `types.ts`),
stamped with the producing node's version token and a timestamp. -/
structure ComputationResult where
  nodeId : String
  outputs : List (String × Value)
  version : String
  timestamp : Nat
  deriving DecidableEq

/-- First-match lookup in an association list (JS `Map.get` / record read). -/
def lookupA {β : Type} (m : List (String × β)) (k : String) : Option β :=
  (m.find? (fun p => p.1 == k)).map (fun p => p.2)

/-- Replace-in-place update of an association list (JS `Map.set` / record
write): an existing binding keeps its position, a new key is appended. -/
def updateA {β : Type} (m : List (String × β)) (k : String) (v : β) :
    List (String × β) :=
  if (m.find? (fun p => p.1 == k)).isSome then
    m.map (fun p => if p.1 == k then (k, v) else p)
  else
    m ++ [(k, v)]

/-- The engine's mutable surroundings: the transient computation cache, the
durable store (keyed by node id, `INSERT OR REPLACE`), the log of executor
invocations (node id and delivered inputs, in order), and the clock. -/
structure EngineState where
  cache : List (String × ComputationResult)
  store : List (String × ComputationResult)
  execLog : List (String × List (String × Value))
  now : Nat
  deriving DecidableEq

/-- Errors thrown by the engine: `Node ... not found` and
`Circular dependency detected involving node ...`. -/
inductive EngineError where
  | notFound (nodeId : String)
  | cycleDetected (nodeId : String)
  deriving DecidableEq

/-- Outcome of the synchronous, state-free topological sort. -/
inductive TopoRes where
  | ok (order : List String)
  | err (e : EngineError)
  | diverge
  deriving DecidableEq

/-- Outcome of a stateful engine operation.  A thrown error propagates with
the graph and state at throw time (JS exceptions do not roll back
mutations); `diverge` is the out-of-fuel marker for runs that the JS
original would never complete. -/
inductive Res (α : Type) where
  | ok (a : α)
  | err (e : EngineError) (g : Graph) (st : EngineState)
  | diverge
  deriving DecidableEq

namespace GraphEngine

/-- `graph.nodes.find(n => n.id === nodeId)`. -/
def findNode (g : Graph) (nodeId : String) : Option GraphNode :=
  g.nodes.find? (fun n => n.id == nodeId)

/-- Source `getDependencies` (lines 96-99): the source ids of all
connections targeting the node, one per connection, in declaration order
(the source performs no deduplication). -/
def getDependencies (g : Graph) (nodeId : String) : List String :=
  (g.connections.filter (fun c => c.targetNodeId == nodeId)).map
    (fun c => c.sourceNodeId)

/-- The per-dependency test of the loop in `needsRecomputation` (lines
80-88): a dependency id absent from the graph is skipped (`continue`,
i.e. contributes `false`); a present dependency is stale-making when it
has no cache entry or its entry's captured version differs from its
current version. -/
def depCheck (g : Graph) (cache : List (String × ComputationResult))
    (depNodeId : String) : Bool :=
  match findNode g depNodeId with
  | none => false
  | some depNode =>
    match lookupA cache depNodeId with
    | none => true
    | some depResult => depResult.version != depNode.version

/-- Source `needsRecomputation` (lines 71-91): stale iff no cache entry,
or the entry's captured version differs from the node's current version,
or some direct dependency that is present in the graph has no cache entry
or an entry whose captured version differs from that dependency's current
version. -/
def needsRecomputation (g : Graph) (cache : List (String × ComputationResult))
    (node : GraphNode) : Bool :=
  match lookupA cache node.id with
  | none => true
  | some cached =>
    if cached.version != node.version then true
    else (getDependencies g node.id).any (depCheck g cache)

/-- One step of the input-gathering loop of `getNodeInputs` (lines
108-115): read the source node's durable result; if it exists and has the
named output port, write it to the target port (overwriting earlier
connections' writes). -/
def inputStep (store : List (String × ComputationResult))
    (inputs : List (String × Value)) (c : Connection) :
    List (String × Value) :=
  match lookupA store c.sourceNodeId with
  | none => inputs
  | some sourceResult =>
    match lookupA sourceResult.outputs c.sourcePort with
    | none => inputs
    | some v => updateA inputs c.targetPort v

/-- Source `getNodeInputs` (lines 104-118): fold `inputStep` over the
connections targeting the node, in declaration order (last applied wins). -/
def getNodeInputs (g : Graph) (nodeId : String)
    (store : List (String × ComputationResult)) : List (String × Value) :=
  (g.connections.filter (fun c => c.targetNodeId == nodeId)).foldl
    (inputStep store) []

/-- `NodeExecutor.execute` (executor source lines 195-236) from the
engine's point of view: the external computation of outputs is the
parameter `exec`; the wrapper stamps the result with the node's id, its
current version token, and the current time. -/
def executeNode (exec : GraphNode → List (String × Value) → List (String × Value))
    (now : Nat) (node : GraphNode) (inputs : List (String × Value)) :
    ComputationResult :=
  { nodeId := node.id, outputs := exec node inputs,
    version := node.version, timestamp := now }

/-- `node.lastComputed = Date.now()` (line 46): mutate the `lastComputed`
field of the first node with the given id (the object `find` returned). -/
def setLastComputedList : List GraphNode → String → Nat → List GraphNode
  | [], _, _ => []
  | n :: ns, nodeId, t =>
    if n.id == nodeId then { n with lastComputed := some t } :: ns
    else n :: setLastComputedList ns nodeId t

/-- Graph-level wrapper for the `lastComputed` mutation. -/
def setLastComputed (g : Graph) (nodeId : String) (t : Nat) : Graph :=
  { g with nodes := setLastComputedList g.nodes nodeId t }

/-- The dependency loop of `computeNode` (lines 30-33): run `f` on each
dependency in order, threading graph and state, aborting on the first
error.  (`f` will be `computeNode` at one fuel less.) -/
def depsRun (f : Graph → String → EngineState →
      Res (ComputationResult × Graph × EngineState)) :
    List String → Graph → EngineState → Res (Graph × EngineState)
  | [], g, st => .ok (g, st)
  | d :: ds, g, st =>
    match f g d st with
    | .ok (_, g', st') => depsRun f ds g' st'
    | .err e ge se => .err e ge se
    | .diverge => .diverge

/-- Source `computeNode` (lines 21-66), fuel-indexed.  Stale path: compute
every direct dependency first, gather inputs from the durable store,
invoke the executor, persist the result durably and in the cache, stamp
the node's `lastComputed`.  Fresh path: return the transient cache entry,
else load from the durable store, else retry (the source's trailing
`return this.computeNode(graph, nodeId)`). -/
def computeNode (exec : GraphNode → List (String × Value) → List (String × Value)) :
    Nat → Graph → String → EngineState →
    Res (ComputationResult × Graph × EngineState)
  | 0, _, _, _ => .diverge
  | fuel + 1, g, nodeId, st =>
    match findNode g nodeId with
    | none => .err (.notFound nodeId) g st
    | some node =>
      if needsRecomputation g st.cache node then
        match depsRun (computeNode exec fuel) (getDependencies g nodeId) g st with
        | .ok (g', st') =>
          let inputs := getNodeInputs g' nodeId st'.store
          let result := executeNode exec st'.now node inputs
          .ok (result, setLastComputed g' nodeId (st'.now + 1),
            { cache := updateA st'.cache nodeId result,
              store := updateA st'.store nodeId result,
              execLog := st'.execLog ++ [(nodeId, inputs)],
              now := st'.now + 2 })
        | .err e ge se => .err e ge se
        | .diverge => .diverge
      else
        match lookupA st.cache nodeId with
        | some cached => .ok (cached, g, st)
        | none =>
          match lookupA st.store nodeId with
          | some stored =>
            .ok (stored, g, { st with cache := updateA st.cache nodeId stored })
          | none => computeNode exec fuel g nodeId st

/-- The dependency loop of the source's `visit` closure (lines 154-157):
visit each dependency in order with `f` (which will be `visit` at one
fuel less), threading the post-order result list. -/
def visitDeps (f : String → List String → List String → TopoRes) :
    List String → List String → List String → TopoRes
  | [], _, result => .ok result
  | d :: ds, visiting, result =>
    match f d visiting result with
    | .ok result' => visitDeps f ds visiting result'
    | e => e

/-- The source's `visit` closure (lines 145-161), fuel-indexed.  The
source keeps a `visited` set and a `result` list that grow in lockstep
(lines 159-160), so the `visited.has` test is modelled as membership in
`result`.  A node already on the exploration stack signals a cycle; a
finished node is appended post-order, after all its dependencies. -/
def visit (g : Graph) : Nat → String → List String → List String → TopoRes
  | 0, _, _, _ => .diverge
  | fuel + 1, nodeId, visiting, result =>
    if visiting.contains nodeId then .err (.cycleDetected nodeId)
    else if result.contains nodeId then .ok result
    else
      match visitDeps (visit g fuel) (getDependencies g nodeId)
          (nodeId :: visiting) result with
      | .ok result' => .ok (result' ++ [nodeId])
      | e => e

/-- The outer loop of `topologicalSort` (lines 163-167): visit every graph
node not yet in the output. -/
def topoOuter (g : Graph) (fuel : Nat) : List GraphNode → List String → TopoRes
  | [], result => .ok result
  | n :: ns, result =>
    if result.contains n.id then topoOuter g fuel ns result
    else
      match visit g fuel n.id [] result with
      | .ok result' => topoOuter g fuel ns result'
      | e => e

/-- Source `topologicalSort` (lines 140-170), fuel-indexed. -/
def topologicalSort (g : Graph) (fuel : Nat) : TopoRes :=
  topoOuter g fuel g.nodes []

/-- The collection loop of `computeGraph` (lines 129-132): call
`computeNode` on each id of the topological order, recording each result
in the results map. -/
def computeGraphGo
    (exec : GraphNode → List (String × Value) → List (String × Value))
    (fuel : Nat) :
    List String → Graph → EngineState → List (String × ComputationResult) →
    Res (List (String × ComputationResult) × Graph × EngineState)
  | [], g, st, results => .ok (results, g, st)
  | nodeId :: rest, g, st, results =>
    match computeNode exec fuel g nodeId st with
    | .ok (r, g', st') =>
      computeGraphGo exec fuel rest g' st' (updateA results nodeId r)
    | .err e ge se => .err e ge se
    | .diverge => .diverge

/-- Source `computeGraph` (lines 123-135): topologically sort once, then
compute every node in that order, collecting one result per id. -/
def computeGraph
    (exec : GraphNode → List (String × Value) → List (String × Value))
    (fuel : Nat) (g : Graph) (st : EngineState) :
    Res (List (String × ComputationResult) × Graph × EngineState) :=
  match topologicalSort g fuel with
  | .ok order => computeGraphGo exec fuel order g st []
  | .err e => .err e g st
  | .diverge => .diverge

/-- Source `clearCache` (lines 175-177): drop all transient entries; the
durable store, the log and the clock are untouched. -/
def clearCache (st : EngineState) : EngineState :=
  { st with cache := [] }

end GraphEngine

end K8v


namespace K8v

/-! ## Association list lemmas -/

theorem lookupA_nil {β : Type} (k : String) : lookupA ([] : List (String × β)) k = none := rfl

theorem find?_ext {α : Type} (l : List α) (p q : α → Bool)
    (h : ∀ a ∈ l, p a = q a) : l.find? p = l.find? q := by
  induction l with
  | nil => rfl
  | cons a l ih =>
    rw [List.find?_cons, List.find?_cons, h a (List.mem_cons_self a l)]
    cases hq : q a
    · exact ih (fun b hb => h b (List.mem_cons_of_mem a hb))
    · rfl

theorem lookupA_updateA_self {β : Type} (m : List (String × β)) (k : String) (v : β) :
    lookupA (updateA m k v) k = some v := by
  unfold updateA
  by_cases hmem : (m.find? (fun p => p.1 == k)).isSome
  · rw [if_pos hmem]
    unfold lookupA
    rw [List.find?_map]
    have hext : m.find? ((fun (p : String × β) => p.1 == k) ∘
        (fun p => if p.1 == k then (k, v) else p)) = m.find? (fun p => p.1 == k) := by
      apply find?_ext
      intro a _
      by_cases ha : a.1 = k <;> simp [ha]
    rw [hext]
    rcases Option.isSome_iff_exists.mp hmem with ⟨q, hq⟩
    have hq1 : (q.1 == k) = true := List.find?_some (p := fun (p : String × β) => p.1 == k) hq
    rw [hq]
    have hqk : q.1 = k := by simpa using hq1
    simp [hqk]
  · rw [if_neg hmem]
    unfold lookupA
    rw [List.find?_append]
    have hnone : m.find? (fun p => p.1 == k) = none :=
      Option.not_isSome_iff_eq_none.mp hmem
    rw [hnone]
    simp

theorem lookupA_updateA_ne {β : Type} (m : List (String × β)) (k x : String) (v : β)
    (hne : x ≠ k) : lookupA (updateA m k v) x = lookupA m x := by
  unfold updateA
  by_cases hmem : (m.find? (fun p => p.1 == k)).isSome
  · rw [if_pos hmem]
    unfold lookupA
    rw [List.find?_map]
    have hext : m.find? ((fun (p : String × β) => p.1 == x) ∘
        (fun p => if p.1 == k then (k, v) else p)) = m.find? (fun p => p.1 == x) := by
      apply find?_ext
      intro a _
      by_cases ha : a.1 = k
      · simp [ha, Ne.symm hne]
      · simp [ha]
    rw [hext]
    cases hfind : m.find? (fun p => p.1 == x) with
    | none => rfl
    | some q =>
      have hq1 : (q.1 == x) = true := List.find?_some (p := fun (p : String × β) => p.1 == x) hfind
      have hqx : q.1 = x := by simpa using hq1
      have : ¬(q.1 = k) := fun h => hne (hqx ▸ h)
      simp [this]
  · rw [if_neg hmem]
    unfold lookupA
    rw [List.find?_append]
    have h2 : [(k, v)].find? (fun p => p.1 == x) = none := by
      simp [Ne.symm hne]
    rw [h2]
    cases m.find? (fun p => p.1 == x) <;> rfl

theorem lookupA_updateA {β : Type} (m : List (String × β)) (k x : String) (v : β) :
    lookupA (updateA m k v) x = if x = k then some v else lookupA m x := by
  by_cases h : x = k
  · subst h
    rw [if_pos rfl]
    exact lookupA_updateA_self m x v
  · rw [if_neg h]
    exact lookupA_updateA_ne m k x v h

end K8v

namespace K8v

open GraphEngine

/-! ## Staleness oracle: declarative characterization (spec 4.2) -/

theorem needsRecomputation_none (g : Graph) (cache : List (String × ComputationResult))
    (node : GraphNode) (hc : lookupA cache node.id = none) :
    needsRecomputation g cache node = true := by
  unfold needsRecomputation
  rw [hc]

theorem needsRecomputation_some (g : Graph) (cache : List (String × ComputationResult))
    (node : GraphNode) (cached : ComputationResult)
    (hc : lookupA cache node.id = some cached) :
    needsRecomputation g cache node =
      if cached.version != node.version then true
      else (getDependencies g node.id).any (depCheck g cache) := by
  unfold needsRecomputation
  rw [hc]

theorem depCheck_eq_true_iff (g : Graph) (cache : List (String × ComputationResult))
    (d : String) :
    depCheck g cache d = true ↔
      ∃ dn, findNode g d = some dn ∧
        (lookupA cache d = none ∨
         ∃ dr, lookupA cache d = some dr ∧ dr.version ≠ dn.version) := by
  unfold depCheck
  cases hf : findNode g d with
  | none => simp
  | some dn =>
    cases hl : lookupA cache d with
    | none => simp
    | some dr => simp [bne_iff_ne]

theorem needsRecomputation_eq_true_iff (g : Graph)
    (cache : List (String × ComputationResult)) (node : GraphNode) :
    needsRecomputation g cache node = true ↔
      (lookupA cache node.id = none ∨
       (∃ c, lookupA cache node.id = some c ∧ c.version ≠ node.version) ∨
       (∃ d, d ∈ getDependencies g node.id ∧
         ∃ dn, findNode g d = some dn ∧
           (lookupA cache d = none ∨
            ∃ dr, lookupA cache d = some dr ∧ dr.version ≠ dn.version))) := by
  cases hc : lookupA cache node.id with
  | none => simp [needsRecomputation_none g cache node hc, hc]
  | some cached =>
    rw [needsRecomputation_some g cache node cached hc]
    by_cases hv : cached.version = node.version
    · have hbne : (cached.version != node.version) = false := by simp [hv]
      rw [hbne]
      simp only [Bool.false_eq_true, if_false, List.any_eq_true, hc]
      constructor
      · rintro ⟨d, hd, hchk⟩
        exact Or.inr (Or.inr ⟨d, hd, (depCheck_eq_true_iff g cache d).mp hchk⟩)
      · rintro (h | ⟨c, hc', hne⟩ | ⟨d, hd, hrest⟩)
        · exact absurd h (by simp)
        · have : c = cached := by
            have := hc'.symm
            simpa using this
          subst this
          exact absurd hv hne
        · exact ⟨d, hd, (depCheck_eq_true_iff g cache d).mpr hrest⟩
    · have hbne : (cached.version != node.version) = true := by simp [hv]
      rw [hbne]
      simp only [if_true, true_iff, hc]
      exact Or.inr (Or.inl ⟨cached, rfl, hv⟩)

/-! ## Dependency resolver: membership and multiplicity -/

theorem mem_getDependencies (g : Graph) (nodeId s : String) :
    s ∈ getDependencies g nodeId ↔
      ∃ c, c ∈ g.connections ∧ c.targetNodeId = nodeId ∧ c.sourceNodeId = s := by
  unfold getDependencies
  simp only [List.mem_map, List.mem_filter, beq_iff_eq]
  constructor
  · rintro ⟨c, ⟨hmem, htgt⟩, hsrc⟩
    exact ⟨c, hmem, htgt, hsrc⟩
  · rintro ⟨c, hmem, htgt, hsrc⟩
    exact ⟨c, ⟨hmem, htgt⟩, hsrc⟩

theorem count_getDependencies_aux (nodeId s : String) :
    ∀ l : List Connection,
      (((l.filter (fun c => c.targetNodeId == nodeId)).map
          (fun c => c.sourceNodeId)).count s) =
        (l.filter (fun c => c.targetNodeId == nodeId && c.sourceNodeId == s)).length := by
  intro l
  induction l with
  | nil => rfl
  | cons c l ih =>
    by_cases ht : c.targetNodeId = nodeId
    · by_cases hs : c.sourceNodeId = s
      · simp [ht, hs, List.count_cons, ih]
      · simp [ht, hs, List.count_cons, ih]
    · simp [ht, ih]

theorem count_getDependencies (g : Graph) (nodeId s : String) :
    (getDependencies g nodeId).count s =
      (g.connections.filter
        (fun c => c.targetNodeId == nodeId && c.sourceNodeId == s)).length :=
  count_getDependencies_aux nodeId s g.connections

/-! ## Dangling references: the staleness oracle skips them -/

/-- The graph with every connection whose source node id is absent
removed (the spec's "treats them as no dependency" reading). -/
def pruneDangling (g : Graph) : Graph :=
  { g with connections :=
      g.connections.filter (fun c => (findNode g c.sourceNodeId).isSome) }

theorem any_depCheck_prune (g : Graph) (cache : List (String × ComputationResult))
    (nodeId : String) :
    ∀ l : List Connection,
      ((l.filter (fun c =>
          c.targetNodeId == nodeId && (findNode g c.sourceNodeId).isSome)).map
            (fun c => c.sourceNodeId)).any (depCheck g cache) =
      ((l.filter (fun c => c.targetNodeId == nodeId)).map
          (fun c => c.sourceNodeId)).any (depCheck g cache) := by
  intro l
  induction l with
  | nil => rfl
  | cons c l ih =>
    by_cases ht : c.targetNodeId = nodeId
    · by_cases hp : (findNode g c.sourceNodeId).isSome
      · simp [ht, hp, ih]
      · have hdc : depCheck g cache c.sourceNodeId = false := by
          unfold depCheck
          cases hf : findNode g c.sourceNodeId with
          | none => rfl
          | some dn => exact absurd (by simp [hf]) hp
        simp [ht, hp, ih, hdc]
    · simp [ht, ih]

theorem needsRecomputation_pruneDangling (g : Graph)
    (cache : List (String × ComputationResult)) (node : GraphNode) :
    needsRecomputation (pruneDangling g) cache node =
      needsRecomputation g cache node := by
  cases hc : lookupA cache node.id with
  | none =>
    rw [needsRecomputation_none (pruneDangling g) cache node hc,
      needsRecomputation_none g cache node hc]
  | some cached =>
    rw [needsRecomputation_some (pruneDangling g) cache node cached hc,
      needsRecomputation_some g cache node cached hc]
    by_cases hv : (cached.version != node.version) = true
    · rw [hv]
      simp
    · simp only [Bool.not_eq_true] at hv
      rw [hv]
      simp only [Bool.false_eq_true, if_false]
      have hdeps : getDependencies (pruneDangling g) node.id =
          ((g.connections.filter (fun c => (findNode g c.sourceNodeId).isSome)).filter
            (fun c => c.targetNodeId == node.id)).map (fun c => c.sourceNodeId) := rfl
      have hdc : depCheck (pruneDangling g) cache = depCheck g cache := rfl
      rw [hdeps, hdc, List.filter_filter,
        any_depCheck_prune g cache node.id g.connections]
      rfl

end K8v

namespace K8v

open GraphEngine

/-! ## Port remapping: last-applied-wins for `getNodeInputs` -/

/-- The value a single connection would deliver to its target port: the
named output of the source node's durably stored result, when both exist
(mirrors the guards at lines 109-113 of the source loop). -/
def effVal (store : List (String × ComputationResult)) (c : Connection) :
    Option Value :=
  match lookupA store c.sourceNodeId with
  | none => none
  | some sourceResult => lookupA sourceResult.outputs c.sourcePort

theorem inputStep_effVal (store : List (String × ComputationResult))
    (inputs : List (String × Value)) (c : Connection) :
    inputStep store inputs c =
      match effVal store c with
      | none => inputs
      | some v => updateA inputs c.targetPort v := by
  unfold inputStep effVal
  cases lookupA store c.sourceNodeId with
  | none => rfl
  | some r => cases lookupA r.outputs c.sourcePort <;> rfl

theorem lookupA_foldl_inputStep (store : List (String × ComputationResult))
    (p : String) :
    ∀ (l : List Connection) (acc : List (String × Value)),
      lookupA (l.foldl (inputStep store) acc) p =
        (l.reverse.findSome?
          (fun c => if c.targetPort = p then effVal store c else none)).or
          (lookupA acc p) := by
  intro l
  induction l with
  | nil => intro acc; simp
  | cons c l ih =>
    intro acc
    rw [List.foldl_cons, ih, List.reverse_cons, List.findSome?_append]
    cases hfind : l.reverse.findSome?
        (fun c => if c.targetPort = p then effVal store c else none) with
    | some v => simp
    | none =>
      simp only [Option.none_or]
      rw [inputStep_effVal]
      cases he : effVal store c with
      | none =>
        by_cases htp : c.targetPort = p <;> simp [List.findSome?_cons, htp, he]
      | some v =>
        by_cases htp : c.targetPort = p
        · subst htp
          rw [lookupA_updateA]
          simp [List.findSome?_cons, he]
        · rw [lookupA_updateA]
          simp [List.findSome?_cons, htp, he, Ne.symm htp]

theorem findSome?_guard_filter (store : List (String × ComputationResult))
    (p : String) :
    ∀ l : List Connection,
      l.findSome? (fun c => if c.targetPort = p then effVal store c else none) =
        (l.filter (fun c => c.targetPort == p)).findSome? (effVal store) := by
  intro l
  induction l with
  | nil => rfl
  | cons c l ih =>
    by_cases htp : c.targetPort = p
    · rw [List.findSome?_cons]
      simp only [htp, if_pos, List.filter_cons, beq_self_eq_true, if_true]
      rw [List.findSome?_cons]
      cases effVal store c
      · exact ih
      · rfl
    · rw [List.findSome?_cons]
      have : (c.targetPort == p) = false := by simp [htp]
      simp only [htp, if_neg, this, List.filter_cons, Bool.false_eq_true,
        not_false_iff]
      simpa using ih

/-- Last-applied-wins: among the connections feeding a given input port of
a given node (in declaration order), each one that can deliver a value
overwrites the previous ones, so the port receives the value of the last
deliverable connection. -/
theorem getNodeInputs_last (g : Graph) (nodeId p : String)
    (store : List (String × ComputationResult)) (c : Connection)
    (hlast : ((g.connections.filter (fun c => c.targetNodeId == nodeId)).filter
        (fun c => c.targetPort == p)).getLast? = some c)
    (hc : (effVal store c).isSome) :
    lookupA (getNodeInputs g nodeId store) p = effVal store c := by
  unfold getNodeInputs
  rw [lookupA_foldl_inputStep, lookupA_nil, Option.or_none,
    findSome?_guard_filter, List.filter_reverse]
  rw [List.getLast?_eq_head?_reverse] at hlast
  cases hrev : ((g.connections.filter (fun c => c.targetNodeId == nodeId)).filter
      (fun c => c.targetPort == p)).reverse with
  | nil => rw [hrev] at hlast; exact absurd hlast (by simp)
  | cons c0 rest =>
    rw [hrev] at hlast
    have hc0 : c0 = c := by simpa using hlast
    subst hc0
    rw [List.findSome?_cons]
    rcases Option.isSome_iff_exists.mp hc with ⟨v, hv⟩
    rw [hv]

end K8v

namespace K8v

open GraphEngine

/-! ## Dependency relation, reachability, cycles -/

/-- One dependency edge as followed by the engine's recursions: from a
node id the engine recurses into each source id of a connection targeting
it. -/
def depStep (g : Graph) (a b : String) : Prop := b ∈ getDependencies g a

/-- `y` is `x` itself or a transitive dependency of `x`. -/
def Reaches (g : Graph) (x y : String) : Prop :=
  Relation.ReflTransGen (depStep g) x y

/-- `c` lies on a dependency cycle. -/
def OnCycle (g : Graph) (c : String) : Prop :=
  Relation.TransGen (depStep g) c c

/-- No dependency cycle anywhere in the graph. -/
def Acyclic (g : Graph) : Prop := ∀ x, ¬ OnCycle g x

/-- The data-model invariant of spec section 3: connection endpoints
reference node identifiers present in the graph. -/
def WellFormed (g : Graph) : Prop :=
  ∀ c ∈ g.connections,
    c.sourceNodeId ∈ g.nodes.map GraphNode.id ∧
    c.targetNodeId ∈ g.nodes.map GraphNode.id

/-- Every id the depth-first traversal can ever touch. -/
def idUniverse (g : Graph) : List String :=
  g.nodes.map GraphNode.id ++ g.connections.map Connection.sourceNodeId

theorem dep_mem_universe {g : Graph} {y d : String}
    (h : d ∈ getDependencies g y) : d ∈ idUniverse g := by
  rcases (mem_getDependencies g y d).mp h with ⟨c, hmem, _, hsrc⟩
  exact List.mem_append_right _ (List.mem_map.mpr ⟨c, hmem, hsrc⟩)

theorem depStep_of_mem {g : Graph} {y d : String}
    (h : d ∈ getDependencies g y) : depStep g y d := h

theorem wellFormed_dep_mem {g : Graph} (hwf : WellFormed g) {y d : String}
    (h : d ∈ getDependencies g y) : d ∈ g.nodes.map GraphNode.id := by
  rcases (mem_getDependencies g y d).mp h with ⟨c, hmem, _, hsrc⟩
  exact hsrc ▸ (hwf c hmem).1

/-! ## Invariants of the depth-first search output -/

/-- Every listed node has all its dependencies listed. -/
def Closed (g : Graph) (res : List String) : Prop :=
  ∀ y ∈ res, ∀ d ∈ getDependencies g y, d ∈ res

/-- No element is a dependency of an earlier element. -/
def TopoSorted (g : Graph) (res : List String) : Prop :=
  res.Pairwise (fun u v => v ∉ getDependencies g u)

/-- No listed node depends directly on itself. -/
def NoSelfDep (g : Graph) (res : List String) : Prop :=
  ∀ y ∈ res, y ∉ getDependencies g y

/-- The bundle of invariants the search maintains on its output list. -/
def GoodRes (g : Graph) (res : List String) : Prop :=
  Closed g res ∧ res.Nodup ∧ TopoSorted g res ∧ NoSelfDep g res

theorem goodRes_nil (g : Graph) : GoodRes g [] :=
  ⟨fun _ h => absurd h (List.not_mem_nil _), List.nodup_nil,
    List.Pairwise.nil, fun _ h => absurd h (List.not_mem_nil _)⟩

/-- Appending a finished node preserves the invariants, provided the node
is new, all its dependencies are already listed, and it does not depend on
itself. -/
theorem goodRes_append (g : Graph) (res : List String) (x : String)
    (hgood : GoodRes g res) (hnew : x ∉ res)
    (hdeps : ∀ d ∈ getDependencies g x, d ∈ res)
    (hself : x ∉ getDependencies g x) :
    GoodRes g (res ++ [x]) := by
  obtain ⟨hcl, hnd, hts, hns⟩ := hgood
  refine ⟨?_, ?_, ?_, ?_⟩
  · intro y hy d hd
    rcases List.mem_append.mp hy with hy | hy
    · exact List.mem_append_left _ (hcl y hy d hd)
    · have hyx : y = x := by simpa using hy
      subst hyx
      exact List.mem_append_left _ (hdeps d hd)
  · exact List.nodup_append.mpr ⟨hnd, List.nodup_singleton x,
      fun a ha hax => hnew (by simpa [List.mem_singleton.mp (by simpa using hax)] using ha)⟩
  · refine List.pairwise_append.mpr ⟨hts, List.pairwise_singleton _ x, ?_⟩
    intro u hu v hv
    have hvx : v = x := by simpa using hv
    subst hvx
    intro hvdep
    exact hnew (hcl u hu v hvdep)
  · intro y hy
    rcases List.mem_append.mp hy with hy | hy
    · exact hns y hy
    · have hyx : y = x := by simpa using hy
      subst hyx
      exact hself

/-! ## Soundness of the `visit` recursion -/

/-- Postconditions of a successful `visit` call. -/
def VisitOkP (g : Graph) (fuel : Nat) : Prop :=
  ∀ x visiting result result',
    visit g fuel x visiting result = .ok result' →
      (∃ zs, result' = result ++ zs) ∧
      x ∈ result' ∧
      (∀ z ∈ result', z ∉ result → z ∉ visiting ∧ Reaches g x z) ∧
      x ∉ visiting ∧
      (GoodRes g result → GoodRes g result')

/-- Postconditions of a successful dependency sweep at the same fuel. -/
def VisitDepsOkP (g : Graph) (fuel : Nat) : Prop :=
  ∀ ds visiting result result',
    visitDeps (visit g fuel) ds visiting result = .ok result' →
      (∃ zs, result' = result ++ zs) ∧
      (∀ d ∈ ds, d ∈ result' ∧ d ∉ visiting) ∧
      (∀ z ∈ result', z ∉ result → z ∉ visiting ∧ ∃ d ∈ ds, Reaches g d z) ∧
      (GoodRes g result → GoodRes g result')

theorem visit_ok_bundle (g : Graph) :
    ∀ fuel, VisitOkP g fuel ∧ VisitDepsOkP g fuel := by
  intro fuel
  induction fuel with
  | zero =>
    constructor
    · intro x visiting result result' h
      exact absurd h (by simp [visit])
    · intro ds visiting result result' h
      cases ds with
      | nil =>
        have hr : result' = result := by
          simpa [visitDeps] using h.symm
        subst hr
        exact ⟨⟨[], by simp⟩, by simp, fun z hz hnz => absurd hz hnz, id⟩
      | cons d ds =>
        have : visit g 0 d visiting result = .diverge := by simp [visit]
        rw [visitDeps, this] at h
        exact absurd h (by simp)
  | succ fuel ih =>
    have hV : VisitOkP g (fuel + 1) := by
      intro x visiting result result' h
      rw [visit] at h
      by_cases hvis : visiting.contains x
      · rw [if_pos hvis] at h
        exact absurd h (by simp)
      · rw [if_neg hvis] at h
        have hxvis : x ∉ visiting := by
          intro hx
          exact hvis (List.elem_iff.mpr hx)
        by_cases hres : result.contains x
        · rw [if_pos hres] at h
          have hr : result' = result := by
            have := h
            simp only [TopoRes.ok.injEq] at this
            exact this.symm
          subst hr
          have hxres : x ∈ result' := List.elem_iff.mp hres
          exact ⟨⟨[], by simp⟩, hxres,
            fun z hz hnz => absurd hz hnz, hxvis, id⟩
        · rw [if_neg hres] at h
          have hxres : x ∉ result := by
            intro hx
            exact hres (List.elem_iff.mpr hx)
          cases hdep : visitDeps (visit g fuel) (getDependencies g x)
              (x :: visiting) result with
          | ok result2 =>
            rw [hdep] at h
            have hr : result' = result2 ++ [x] := by
              simp only [TopoRes.ok.injEq] at h
              exact h.symm
            subst hr
            obtain ⟨⟨zs, hzs⟩, hds, hnew, hgoodp⟩ := ih.2 _ _ _ _ hdep
            have hx2 : x ∉ result2 := by
              intro hx2
              exact (hnew x hx2 hxres).1 (List.mem_cons_self x visiting)
            refine ⟨⟨zs ++ [x], by rw [hzs, List.append_assoc]⟩, ?_, ?_, hxvis, ?_⟩
            · exact List.mem_append_right _ (List.mem_singleton_self x)
            · intro z hz hnz
              rcases List.mem_append.mp hz with hz2 | hz2
              · have := hnew z hz2 hnz
                refine ⟨fun hzv => this.1 (List.mem_cons_of_mem x hzv), ?_⟩
                rcases this.2 with ⟨d, hd, hreach⟩
                exact Relation.ReflTransGen.head (depStep_of_mem hd) hreach
              · have hzx : z = x := by simpa using hz2
                subst hzx
                exact ⟨hxvis, Relation.ReflTransGen.refl⟩
            · intro hgood
              refine goodRes_append g result2 x (hgoodp hgood) hx2 ?_ ?_
              · intro d hd
                exact (hds d hd).1
              · intro hself
                exact (hds x hself).2 (List.mem_cons_self x visiting)
          | err e =>
            rw [hdep] at h
            exact absurd h (by simp)
          | diverge =>
            rw [hdep] at h
            exact absurd h (by simp)
    refine ⟨hV, ?_⟩
    intro ds
    induction ds with
    | nil =>
      intro visiting result result' h
      have hr : result' = result := by
        simpa [visitDeps] using h.symm
      subst hr
      exact ⟨⟨[], by simp⟩, by simp, fun z hz hnz => absurd hz hnz, id⟩
    | cons d ds ihds =>
      intro visiting result result' h
      rw [visitDeps] at h
      cases hd : visit g (fuel + 1) d visiting result with
      | ok result1 =>
        rw [hd] at h
        obtain ⟨⟨zs1, hzs1⟩, hdmem, hnew1, hdvis, hgood1⟩ := hV _ _ _ _ hd
        obtain ⟨⟨zs2, hzs2⟩, hds2, hnew2, hgood2⟩ := ihds _ _ _ h
        have hsub1 : ∀ z ∈ result1, z ∈ result' := by
          intro z hz
          rw [hzs2]
          exact List.mem_append_left _ hz
        refine ⟨⟨zs1 ++ zs2, by rw [hzs2, hzs1, List.append_assoc]⟩, ?_, ?_, ?_⟩
        · intro d' hd'
          rcases List.mem_cons.mp hd' with hd' | hd'
          · subst hd'
            exact ⟨hsub1 d' hdmem, hdvis⟩
          · rcases hds2 d' hd' with ⟨hmem', hvis'⟩
            exact ⟨hmem', hvis'⟩
        · intro z hz hnz
          by_cases hz1 : z ∈ result1
          · have := hnew1 z hz1 hnz
            exact ⟨this.1, ⟨d, List.mem_cons_self d ds, this.2⟩⟩
          · have := hnew2 z hz hz1
            exact ⟨this.1, this.2.imp (fun d' hd' =>
              ⟨List.mem_cons_of_mem d hd'.1, hd'.2⟩)⟩
        · intro hgood
          exact hgood2 (hgood1 hgood)
      | err e =>
        rw [hd] at h
        exact absurd h (by simp)
      | diverge =>
        rw [hd] at h
        exact absurd h (by simp)

/-! ## Soundness of the outer loop and of `topologicalSort` -/

theorem topoOuter_ok (g : Graph) (fuel : Nat) :
    ∀ ns result result',
      topoOuter g fuel ns result = .ok result' →
        (∃ zs, result' = result ++ zs) ∧
        (∀ n ∈ ns, n.id ∈ result') ∧
        (∀ z ∈ result', z ∉ result → ∃ n ∈ ns, Reaches g n.id z) ∧
        (GoodRes g result → GoodRes g result') := by
  intro ns
  induction ns with
  | nil =>
    intro result result' h
    have hr : result' = result := by
      simpa [topoOuter] using h.symm
    subst hr
    exact ⟨⟨[], by simp⟩, by simp, fun z hz hnz => absurd hz hnz, id⟩
  | cons n ns ihns =>
    intro result result' h
    rw [topoOuter] at h
    by_cases hin : result.contains n.id
    · rw [if_pos hin] at h
      obtain ⟨⟨zs, hzs⟩, hmem, hreach, hgood⟩ := ihns _ _ h
      refine ⟨⟨zs, hzs⟩, ?_, ?_, hgood⟩
      · intro m hm
        rcases List.mem_cons.mp hm with hm | hm
        · subst hm
          rw [hzs]
          exact List.mem_append_left _ (List.elem_iff.mp hin)
        · exact hmem m hm
      · intro z hz hnz
        exact (hreach z hz hnz).imp (fun m hm => ⟨List.mem_cons_of_mem n hm.1, hm.2⟩)
    · rw [if_neg hin] at h
      cases hv : visit g fuel n.id [] result with
      | ok result1 =>
        rw [hv] at h
        obtain ⟨⟨zs1, hzs1⟩, hnmem, hnew1, _, hgood1⟩ :=
          (visit_ok_bundle g fuel).1 _ _ _ _ hv
        obtain ⟨⟨zs2, hzs2⟩, hmem2, hreach2, hgood2⟩ := ihns _ _ h
        have hsub1 : ∀ z ∈ result1, z ∈ result' := by
          intro z hz
          rw [hzs2]
          exact List.mem_append_left _ hz
        refine ⟨⟨zs1 ++ zs2, by rw [hzs2, hzs1, List.append_assoc]⟩, ?_, ?_, ?_⟩
        · intro m hm
          rcases List.mem_cons.mp hm with hm | hm
          · subst hm
            exact hsub1 _ hnmem
          · exact hmem2 m hm
        · intro z hz hnz
          by_cases hz1 : z ∈ result1
          · exact ⟨n, List.mem_cons_self n ns, (hnew1 z hz1 hnz).2⟩
          · exact ((hreach2 z hz hz1).imp
              (fun m hm => ⟨List.mem_cons_of_mem n hm.1, hm.2⟩))
        · intro hgood
          exact hgood2 (hgood1 hgood)
      | err e =>
        rw [hv] at h
        exact absurd h (by simp)
      | diverge =>
        rw [hv] at h
        exact absurd h (by simp)

/-- Everything a successful `topologicalSort` guarantees: the order lists
every node id of the graph, everything it lists is reachable from some
node, and it is duplicate-free, dependency-closed and topologically
sorted. -/
theorem topologicalSort_ok (g : Graph) (fuel : Nat) (order : List String)
    (h : topologicalSort g fuel = .ok order) :
    (∀ n ∈ g.nodes, n.id ∈ order) ∧
    (∀ z ∈ order, ∃ n ∈ g.nodes, Reaches g n.id z) ∧
    GoodRes g order := by
  obtain ⟨_, hmem, hreach, hgood⟩ := topoOuter_ok g fuel g.nodes [] order h
  exact ⟨hmem, fun z hz => hreach z hz (List.not_mem_nil z), hgood (goodRes_nil g)⟩

/-! ## A topologically sorted closed list admits no cycle -/

theorem topoSorted_idxOf_lt (g : Graph) :
    ∀ res : List String, res.Nodup → TopoSorted g res → NoSelfDep g res →
      ∀ y ∈ res, ∀ d ∈ getDependencies g y, d ∈ res →
        res.indexOf d < res.indexOf y := by
  intro res
  induction res with
  | nil =>
    intro _ _ _ y hy
    exact absurd hy (List.not_mem_nil y)
  | cons a t iht =>
    intro hnd hts hns y hy d hd hdres
    have hnd2 : t.Nodup := (List.nodup_cons.mp hnd).2
    have hant : a ∉ t := (List.nodup_cons.mp hnd).1
    have hts2 : TopoSorted g t := List.Pairwise.of_cons hts
    have hns2 : NoSelfDep g t := fun z hz => hns z (List.mem_cons_of_mem a hz)
    rcases List.mem_cons.mp hy with hya | hyt
    · rcases List.mem_cons.mp hdres with hda | hdt
      · rw [hya, ← hda] at hd
        exact absurd hd (hns d (hda ▸ List.mem_cons_self a t))
      · rw [hya] at hd
        exact absurd hd (List.rel_of_pairwise_cons hts hdt)
    · have hay : a ≠ y := fun hay => hant (hay ▸ hyt)
      rcases List.mem_cons.mp hdres with hda | hdt
      · rw [hda, List.indexOf_cons_self, List.indexOf_cons_ne t hay]
        exact Nat.succ_pos _
      · have had : a ≠ d := fun had => hant (had ▸ hdt)
        rw [List.indexOf_cons_ne t had, List.indexOf_cons_ne t hay]
        exact Nat.succ_lt_succ (iht hnd2 hts2 hns2 y hyt d hd hdt)

/-- A dependency-closed, duplicate-free, topologically sorted list cannot
contain a node lying on a dependency cycle. -/
theorem goodRes_no_cycle (g : Graph) (res : List String) (hgood : GoodRes g res) :
    ∀ c ∈ res, ¬ OnCycle g c := by
  obtain ⟨hcl, hnd, hts, hns⟩ := hgood
  have hstep : ∀ a b, depStep g a b → a ∈ res → b ∈ res ∧
      res.indexOf b < res.indexOf a := by
    intro a b hab ha
    have hb : b ∈ res := hcl a ha b hab
    exact ⟨hb, topoSorted_idxOf_lt g res hnd hts hns a ha b hab hb⟩
  have htrans : ∀ a b, Relation.TransGen (depStep g) a b → a ∈ res →
      b ∈ res ∧ res.indexOf b < res.indexOf a := by
    intro a b hab
    induction hab with
    | single h => intro ha; exact hstep _ _ h ha
    | tail hab h ih =>
      intro ha
      obtain ⟨hb, hlt⟩ := ih ha
      obtain ⟨hc, hlt'⟩ := hstep _ _ h hb
      exact ⟨hc, Nat.lt_trans hlt' hlt⟩
  intro c hc hcyc
  have := (htrans c c hcyc hc).2
  exact Nat.lt_irrefl _ this

/-! ## Error soundness: a `CycleDetected` error names a node on a cycle -/

/-- The exploration stack is a dependency chain: walking it from any
member up to the top follows dependency edges. -/
theorem chain_reach (g : Graph) :
    ∀ (l : List String) (c : String),
      List.Chain' (fun u v => u ∈ getDependencies g v) (c :: l) →
      ∀ a ∈ l, Relation.TransGen (depStep g) a c := by
  intro l
  induction l with
  | nil =>
    intro c _ a ha
    exact absurd ha (List.not_mem_nil a)
  | cons b l ihl =>
    intro c hchain a ha
    have hcb : c ∈ getDependencies g b := (List.chain'_cons.mp hchain).1
    have hchain2 := (List.chain'_cons.mp hchain).2
    rcases List.mem_cons.mp ha with hab | hal
    · rw [hab]
      exact Relation.TransGen.single hcb
    · exact Relation.TransGen.tail (ihl b hchain2 a hal) hcb

/-- Error postcondition of `visit`. -/
def VisitErrP (g : Graph) (fuel : Nat) : Prop :=
  ∀ x visiting result e,
    visit g fuel x visiting result = .err e →
    List.Chain' (fun u v => u ∈ getDependencies g v) (x :: visiting) →
    ∃ c, e = .cycleDetected c ∧ OnCycle g c

/-- Error postcondition of the dependency sweep at the same fuel. -/
def VisitDepsErrP (g : Graph) (fuel : Nat) : Prop :=
  ∀ ds visiting result e,
    visitDeps (visit g fuel) ds visiting result = .err e →
    List.Chain' (fun u v => u ∈ getDependencies g v) visiting →
    (∀ d ∈ ds, ∀ w ∈ visiting.head?, d ∈ getDependencies g w) →
    ∃ c, e = .cycleDetected c ∧ OnCycle g c

theorem visit_err_bundle (g : Graph) :
    ∀ fuel, VisitErrP g fuel ∧ VisitDepsErrP g fuel := by
  intro fuel
  induction fuel with
  | zero =>
    constructor
    · intro x visiting result e h
      exact absurd h (by simp [visit])
    · intro ds visiting result e h
      cases ds with
      | nil => exact absurd h (by simp [visitDeps])
      | cons d ds =>
        have hdiv : visit g 0 d visiting result = .diverge := by simp [visit]
        rw [visitDeps, hdiv] at h
        exact absurd h (by simp)
  | succ fuel ih =>
    have hV : VisitErrP g (fuel + 1) := by
      intro x visiting result e h hchain
      rw [visit] at h
      by_cases hvis : visiting.contains x
      · rw [if_pos hvis] at h
        have he : e = .cycleDetected x := by
          simp only [TopoRes.err.injEq] at h
          exact h.symm
        refine ⟨x, he, ?_⟩
        exact chain_reach g visiting x hchain x (List.elem_iff.mp hvis)
      · rw [if_neg hvis] at h
        by_cases hres : result.contains x
        · rw [if_pos hres] at h
          exact absurd h (by simp)
        · rw [if_neg hres] at h
          cases hdep : visitDeps (visit g fuel) (getDependencies g x)
              (x :: visiting) result with
          | ok result2 =>
            rw [hdep] at h
            exact absurd h (by simp)
          | err e2 =>
            rw [hdep] at h
            have he : e2 = e := by
              simp only [TopoRes.err.injEq] at h
              exact h
            subst he
            refine ih.2 _ _ _ _ hdep ?_ ?_
            · exact hchain
            · intro d hd w hw
              have hwx : x = w := by simpa using hw
              rw [← hwx]
              exact hd
          | diverge =>
            rw [hdep] at h
            exact absurd h (by simp)
    refine ⟨hV, ?_⟩
    intro ds
    induction ds with
    | nil =>
      intro visiting result e h
      exact absurd h (by simp [visitDeps])
    | cons d ds ihds =>
      intro visiting result e h hchain hds
      rw [visitDeps] at h
      cases hd : visit g (fuel + 1) d visiting result with
      | ok result1 =>
        rw [hd] at h
        refine ihds _ _ _ h hchain ?_
        intro d' hd' w hw
        exact hds d' (List.mem_cons_of_mem d hd') w hw
      | err e2 =>
        rw [hd] at h
        have he : e2 = e := by
          simp only [TopoRes.err.injEq] at h
          exact h
        subst he
        refine hV _ _ _ _ hd ?_
        rw [List.chain'_cons']
        refine ⟨?_, hchain⟩
        intro w hw
        exact hds d (List.mem_cons_self d ds) w hw
      | diverge =>
        rw [hd] at h
        exact absurd h (by simp)

theorem topoOuter_err (g : Graph) (fuel : Nat) :
    ∀ ns result e,
      topoOuter g fuel ns result = .err e →
      ∃ c, e = .cycleDetected c ∧ OnCycle g c := by
  intro ns
  induction ns with
  | nil =>
    intro result e h
    exact absurd h (by simp [topoOuter])
  | cons n ns ihns =>
    intro result e h
    rw [topoOuter] at h
    by_cases hin : result.contains n.id
    · rw [if_pos hin] at h
      exact ihns _ _ h
    · rw [if_neg hin] at h
      cases hv : visit g fuel n.id [] result with
      | ok result1 =>
        rw [hv] at h
        exact ihns _ _ h
      | err e2 =>
        rw [hv] at h
        have he : e2 = e := by
          simp only [TopoRes.err.injEq] at h
          exact h
        subst he
        exact (visit_err_bundle g fuel).1 _ _ _ _ hv (List.chain'_singleton _)
      | diverge =>
        rw [hv] at h
        exact absurd h (by simp)

theorem topologicalSort_err (g : Graph) (fuel : Nat) (e : EngineError)
    (h : topologicalSort g fuel = .err e) :
    ∃ c, e = .cycleDetected c ∧ OnCycle g c :=
  topoOuter_err g fuel g.nodes [] e h

/-! ## Fuel sufficiency: the search cannot run out of fuel -/

theorem stack_length_le (g : Graph) (visiting : List String)
    (hnd : visiting.Nodup) (hsub : ∀ v ∈ visiting, v ∈ idUniverse g) :
    visiting.length ≤ (idUniverse g).length :=
  (List.subperm_of_subset hnd (fun _ hv => hsub _ hv)).length_le

theorem visit_no_diverge_bundle (g : Graph) :
    ∀ fuel,
      (∀ x visiting result,
        visiting.Nodup → (∀ v ∈ visiting, v ∈ idUniverse g) →
        x ∈ idUniverse g →
        (idUniverse g).length + 1 ≤ fuel + visiting.length →
        visit g fuel x visiting result ≠ .diverge) ∧
      (∀ ds visiting result,
        visiting.Nodup → (∀ v ∈ visiting, v ∈ idUniverse g) →
        (∀ d ∈ ds, d ∈ idUniverse g) →
        (idUniverse g).length + 1 ≤ fuel + visiting.length →
        visitDeps (visit g fuel) ds visiting result ≠ .diverge) := by
  intro fuel
  induction fuel with
  | zero =>
    constructor
    · intro x visiting result hnd hsub _ harith
      have := stack_length_le g visiting hnd hsub
      omega
    · intro ds visiting result hnd hsub _ harith
      have := stack_length_le g visiting hnd hsub
      omega
  | succ fuel ih =>
    have hV : ∀ x visiting result,
        visiting.Nodup → (∀ v ∈ visiting, v ∈ idUniverse g) →
        x ∈ idUniverse g →
        (idUniverse g).length + 1 ≤ (fuel + 1) + visiting.length →
        visit g (fuel + 1) x visiting result ≠ .diverge := by
      intro x visiting result hnd hsub hx harith
      rw [visit]
      by_cases hvis : visiting.contains x
      · rw [if_pos hvis]
        simp
      · rw [if_neg hvis]
        by_cases hres : result.contains x
        · rw [if_pos hres]
          simp
        · rw [if_neg hres]
          have hxvis : x ∉ visiting := fun hx' => hvis (List.elem_iff.mpr hx')
          have hndep : visitDeps (visit g fuel) (getDependencies g x)
              (x :: visiting) result ≠ .diverge := by
            refine ih.2 _ _ _ (List.nodup_cons.mpr ⟨hxvis, hnd⟩) ?_ ?_ ?_
            · intro v hv
              rcases List.mem_cons.mp hv with hv | hv
              · rw [hv]; exact hx
              · exact hsub v hv
            · intro d hd
              exact dep_mem_universe hd
            · simp only [List.length_cons]
              omega
          cases hdep : visitDeps (visit g fuel) (getDependencies g x)
              (x :: visiting) result with
          | ok result2 => simp
          | err e => simp
          | diverge => exact absurd hdep hndep
    refine ⟨hV, ?_⟩
    intro ds
    induction ds with
    | nil =>
      intro visiting result _ _ _ _
      simp [visitDeps]
    | cons d ds ihds =>
      intro visiting result hnd hsub hdsU harith
      rw [visitDeps]
      have hdU : d ∈ idUniverse g := hdsU d (List.mem_cons_self d ds)
      have hvd : visit g (fuel + 1) d visiting result ≠ .diverge :=
        hV d visiting result hnd hsub hdU harith
      cases hv : visit g (fuel + 1) d visiting result with
      | ok result1 =>
        exact ihds _ _ hnd hsub
          (fun d' hd' => hdsU d' (List.mem_cons_of_mem d hd')) harith
      | err e => simp
      | diverge => exact absurd hv hvd

theorem topoOuter_no_diverge (g : Graph) (fuel : Nat)
    (hfuel : (idUniverse g).length + 1 ≤ fuel) :
    ∀ ns result, (∀ n ∈ ns, n ∈ g.nodes) →
      topoOuter g fuel ns result ≠ .diverge := by
  intro ns
  induction ns with
  | nil =>
    intro result _
    simp [topoOuter]
  | cons n ns ihns =>
    intro result hmem
    rw [topoOuter]
    by_cases hin : result.contains n.id
    · rw [if_pos hin]
      exact ihns result (fun m hm => hmem m (List.mem_cons_of_mem n hm))
    · rw [if_neg hin]
      have hnU : n.id ∈ idUniverse g :=
        List.mem_append_left _
          (List.mem_map.mpr ⟨n, hmem n (List.mem_cons_self n ns), rfl⟩)
      have hnd : visit g fuel n.id [] result ≠ .diverge := by
        refine (visit_no_diverge_bundle g fuel).1 _ _ _ List.nodup_nil ?_ hnU ?_
        · intro v hv
          exact absurd hv (List.not_mem_nil v)
        · simpa using hfuel
      cases hv : visit g fuel n.id [] result with
      | ok result1 =>
        exact ihns result1 (fun m hm => hmem m (List.mem_cons_of_mem n hm))
      | err e => simp
      | diverge => exact absurd hv hnd

theorem topologicalSort_no_diverge (g : Graph) (fuel : Nat)
    (hfuel : (idUniverse g).length + 1 ≤ fuel) :
    topologicalSort g fuel ≠ .diverge :=
  topoOuter_no_diverge g fuel hfuel g.nodes [] (fun _ hm => hm)

/-! ## Fuel monotonicity of the search -/

theorem visit_mono_bundle (g : Graph) :
    ∀ fuel,
      (∀ x visiting result, visit g fuel x visiting result ≠ .diverge →
        visit g (fuel + 1) x visiting result = visit g fuel x visiting result) ∧
      (∀ ds visiting result,
        visitDeps (visit g fuel) ds visiting result ≠ .diverge →
        visitDeps (visit g (fuel + 1)) ds visiting result =
          visitDeps (visit g fuel) ds visiting result) := by
  intro fuel
  induction fuel with
  | zero =>
    constructor
    · intro x visiting result h
      exact absurd (by simp [visit]) h
    · intro ds visiting result h
      cases ds with
      | nil => rfl
      | cons d ds =>
        have hdiv : visit g 0 d visiting result = .diverge := by simp [visit]
        rw [visitDeps, hdiv] at h
        exact absurd rfl h
  | succ fuel ih =>
    have hV : ∀ x visiting result,
        visit g (fuel + 1) x visiting result ≠ .diverge →
        visit g (fuel + 2) x visiting result =
          visit g (fuel + 1) x visiting result := by
      intro x visiting result h
      rw [visit] at h
      rw [visit, visit]
      by_cases hvis : visiting.contains x
      · rw [if_pos hvis, if_pos hvis]
      · rw [if_neg hvis] at h
        rw [if_neg hvis, if_neg hvis]
        by_cases hres : result.contains x
        · rw [if_pos hres, if_pos hres]
        · rw [if_neg hres] at h
          rw [if_neg hres, if_neg hres]
          have hndiv : visitDeps (visit g fuel) (getDependencies g x)
              (x :: visiting) result ≠ .diverge := by
            intro hdiv
            rw [hdiv] at h
            exact h rfl
          rw [ih.2 _ _ _ hndiv]
    refine ⟨hV, ?_⟩
    intro ds
    induction ds with
    | nil =>
      intro visiting result _
      rfl
    | cons d ds ihds =>
      intro visiting result h
      rw [visitDeps] at h
      rw [visitDeps, visitDeps]
      have hvd : visit g (fuel + 1) d visiting result ≠ .diverge := by
        intro hdiv
        rw [hdiv] at h
        exact h rfl
      rw [hV _ _ _ hvd]
      cases hv : visit g (fuel + 1) d visiting result with
      | ok result1 =>
        rw [hv] at h
        have h1 : visitDeps (visit g (fuel + 1)) ds visiting result1 ≠
            TopoRes.diverge := h
        exact ihds _ _ h1
      | err e => rfl
      | diverge => exact absurd hv hvd

theorem visit_mono_le (g : Graph) {fuel fuel' : Nat} (hle : fuel ≤ fuel') :
    ∀ x visiting result, visit g fuel x visiting result ≠ .diverge →
      visit g fuel' x visiting result = visit g fuel x visiting result := by
  induction fuel' with
  | zero =>
    intro x visiting result h
    have : fuel = 0 := Nat.le_zero.mp hle
    rw [this]
  | succ fuel' ihf =>
    intro x visiting result h
    rcases Nat.lt_or_ge fuel (fuel' + 1) with hlt | hge
    · have hle' : fuel ≤ fuel' := Nat.lt_succ_iff.mp hlt
      have heq := ihf hle' x visiting result h
      have hnd : visit g fuel' x visiting result ≠ .diverge := by
        rw [heq]
        exact h
      rw [(visit_mono_bundle g fuel').1 x visiting result hnd, heq]
    · have : fuel = fuel' + 1 := Nat.le_antisymm hle hge
      rw [this]

theorem topoOuter_mono_le (g : Graph) {fuel fuel' : Nat} (hle : fuel ≤ fuel') :
    ∀ ns result, topoOuter g fuel ns result ≠ .diverge →
      topoOuter g fuel' ns result = topoOuter g fuel ns result := by
  intro ns
  induction ns with
  | nil =>
    intro result _
    rfl
  | cons n ns ihns =>
    intro result h
    rw [topoOuter] at h
    rw [topoOuter, topoOuter]
    by_cases hin : result.contains n.id
    · rw [if_pos hin] at h
      rw [if_pos hin, if_pos hin]
      exact ihns result h
    · rw [if_neg hin] at h
      rw [if_neg hin, if_neg hin]
      have hvd : visit g fuel n.id [] result ≠ .diverge := by
        intro hdiv
        rw [hdiv] at h
        exact h rfl
      rw [visit_mono_le g hle _ _ _ hvd]
      cases hv : visit g fuel n.id [] result with
      | ok result1 =>
        rw [hv] at h
        have h1 : topoOuter g fuel ns result1 ≠ TopoRes.diverge := h
        have h2 := ihns result1 h1
        exact h2
      | err e => rfl
      | diverge => exact absurd hv hvd

theorem topologicalSort_mono_le (g : Graph) {fuel fuel' : Nat}
    (hle : fuel ≤ fuel') (h : topologicalSort g fuel ≠ .diverge) :
    topologicalSort g fuel' = topologicalSort g fuel :=
  topoOuter_mono_le g hle g.nodes [] h

/-! ## Graph shape: everything the engine never writes -/

/-- The node fields the engine never writes (everything except
`lastComputed`). -/
def nodeShape (n : GraphNode) : String × String × String × String :=
  (n.id, n.version, n.config, n.metadata)

/-- Two graphs agree on everything except possibly the nodes'
`lastComputed` stamps. -/
def SameShape (g h : Graph) : Prop :=
  h.id = g.id ∧ h.name = g.name ∧ h.createdAt = g.createdAt ∧
  h.updatedAt = g.updatedAt ∧ h.connections = g.connections ∧
  h.nodes.map nodeShape = g.nodes.map nodeShape

theorem sameShape_refl (g : Graph) : SameShape g g :=
  ⟨rfl, rfl, rfl, rfl, rfl, rfl⟩

theorem sameShape_trans {g h k : Graph} (h1 : SameShape g h)
    (h2 : SameShape h k) : SameShape g k := by
  obtain ⟨a1, b1, c1, d1, e1, f1⟩ := h1
  obtain ⟨a2, b2, c2, d2, e2, f2⟩ := h2
  exact ⟨a2.trans a1, b2.trans b1, c2.trans c1, d2.trans d1,
    e2.trans e1, f2.trans f1⟩

theorem find?_shape (x : String) :
    ∀ (l l' : List GraphNode), l'.map nodeShape = l.map nodeShape →
      Option.map nodeShape (l'.find? (fun n => n.id == x)) =
        Option.map nodeShape (l.find? (fun n => n.id == x)) := by
  intro l
  induction l with
  | nil =>
    intro l' hmap
    cases l' with
    | nil => rfl
    | cons a b => simp at hmap
  | cons n t iht =>
    intro l' hmap
    cases l' with
    | nil => exact absurd hmap (by simp)
    | cons n' t' =>
      simp only [List.map_cons, List.cons.injEq] at hmap
      have hid : n'.id = n.id := by
        have := hmap.1
        simp only [nodeShape, Prod.mk.injEq] at this
        exact this.1
      rw [List.find?_cons, List.find?_cons, hid]
      by_cases hx : n.id = x
      · simp only [hx, beq_self_eq_true, cond_true]
        simp [hmap.1]
      · have hbx : (n.id == x) = false := by simp [hx]
        rw [hbx]
        simp only [cond_false]
        exact iht t' hmap.2

theorem findNode_shape {g h : Graph} (hs : SameShape g h) (x : String) :
    Option.map nodeShape (findNode h x) = Option.map nodeShape (findNode g x) :=
  find?_shape x g.nodes h.nodes hs.2.2.2.2.2

theorem findNode_shape_some {g h : Graph} (hs : SameShape g h) {x : String}
    {n : GraphNode} (hf : findNode g x = some n) :
    ∃ n', findNode h x = some n' ∧ nodeShape n' = nodeShape n := by
  have := findNode_shape hs x
  rw [hf] at this
  cases hf' : findNode h x with
  | none => rw [hf'] at this; exact absurd this (by simp)
  | some n' =>
    rw [hf'] at this
    exact ⟨n', rfl, by simpa using this⟩

theorem findNode_shape_none {g h : Graph} (hs : SameShape g h) {x : String}
    (hf : findNode g x = none) : findNode h x = none := by
  have := findNode_shape hs x
  rw [hf] at this
  cases hf' : findNode h x with
  | none => rfl
  | some n' => rw [hf'] at this; exact absurd this (by simp)

theorem nodeShape_id {n m : GraphNode} (h : nodeShape n = nodeShape m) :
    n.id = m.id := by
  simp only [nodeShape, Prod.mk.injEq] at h
  exact h.1

theorem nodeShape_version {n m : GraphNode} (h : nodeShape n = nodeShape m) :
    n.version = m.version := by
  simp only [nodeShape, Prod.mk.injEq] at h
  exact h.2.1

theorem getDependencies_shape {g h : Graph} (hs : SameShape g h) :
    getDependencies h = getDependencies g := by
  funext nodeId
  unfold getDependencies
  rw [hs.2.2.2.2.1]

theorem depStep_shape {g h : Graph} (hs : SameShape g h) :
    depStep h = depStep g := by
  funext a b
  unfold depStep
  rw [getDependencies_shape hs]

theorem reaches_shape {g h : Graph} (hs : SameShape g h) {x z : String}
    (hr : Reaches h x z) : Reaches g x z := by
  unfold Reaches at hr ⊢
  rwa [depStep_shape hs] at hr

theorem depCheck_shape {g h : Graph} (hs : SameShape g h)
    (cache : List (String × ComputationResult)) (d : String) :
    depCheck h cache d = depCheck g cache d := by
  unfold depCheck
  cases hf : findNode g d with
  | none =>
    rw [findNode_shape_none hs hf]
  | some dn =>
    obtain ⟨dn', hf', hsh⟩ := findNode_shape_some hs hf
    rw [hf']
    cases hl : lookupA cache d with
    | none => rfl
    | some dr =>
      show (dr.version != dn'.version) = (dr.version != dn.version)
      rw [nodeShape_version hsh]

theorem needsRecomputation_shape {g h : Graph} (hs : SameShape g h)
    (cache : List (String × ComputationResult)) {x : String}
    {n n' : GraphNode} (hf : findNode g x = some n)
    (hf' : findNode h x = some n') :
    needsRecomputation h cache n' = needsRecomputation g cache n := by
  obtain ⟨n'', hf'', hsh⟩ := findNode_shape_some hs hf
  rw [hf'] at hf''
  have hn : n'' = n' := by simpa using hf''.symm
  subst hn
  have hid : n''.id = n.id := nodeShape_id hsh
  have hver : n''.version = n.version := nodeShape_version hsh
  have hdc : depCheck h cache = depCheck g cache :=
    funext (depCheck_shape hs cache)
  unfold needsRecomputation
  rw [hid, hver, getDependencies_shape hs, hdc]

/-! ## `setLastComputed` facts -/

theorem setLastComputedList_shape (x : String) (t : Nat) :
    ∀ l : List GraphNode,
      (setLastComputedList l x t).map nodeShape = l.map nodeShape := by
  intro l
  induction l with
  | nil => rfl
  | cons n ns ih =>
    rw [setLastComputedList]
    by_cases hx : n.id = x
    · have : (n.id == x) = true := by simp [hx]
      rw [this]
      simp only [if_true, List.map_cons]
      rfl
    · have : (n.id == x) = false := by simp [hx]
      rw [this]
      simp only [Bool.false_eq_true, if_false, List.map_cons, ih]

theorem setLastComputed_shape (g : Graph) (x : String) (t : Nat) :
    SameShape g (setLastComputed g x t) :=
  ⟨rfl, rfl, rfl, rfl, rfl, setLastComputedList_shape x t g.nodes⟩

theorem setLastComputedList_find_self (x : String) (t : Nat) :
    ∀ l : List GraphNode, ∀ n,
      l.find? (fun m => m.id == x) = some n →
      (setLastComputedList l x t).find? (fun m => m.id == x) =
        some { n with lastComputed := some t } := by
  intro l
  induction l with
  | nil =>
    intro n h
    exact absurd h (by simp)
  | cons m ms ih =>
    intro n h
    rw [setLastComputedList]
    by_cases hx : m.id = x
    · have hb : (m.id == x) = true := by simp [hx]
      rw [hb]
      simp only [if_true]
      rw [List.find?_cons] at h ⊢
      simp only [hb, cond_true] at h
      have hn : m = n := by simpa using h
      subst hn
      have hid2 : ({ m with lastComputed := some t } : GraphNode).id = m.id := rfl
      simp [hid2, hb]
    · have hb : (m.id == x) = false := by simp [hx]
      rw [hb]
      simp only [Bool.false_eq_true, if_false]
      rw [List.find?_cons] at h
      rw [hb] at h
      simp only [cond_false] at h
      rw [List.find?_cons]
      have : ({ m with lastComputed := m.lastComputed } : GraphNode).id = m.id := rfl
      simp only [hb, cond_false]
      exact ih n h

theorem setLastComputed_find_self {g : Graph} {x : String} {n : GraphNode}
    (t : Nat) (h : findNode g x = some n) :
    findNode (setLastComputed g x t) x = some { n with lastComputed := some t } :=
  setLastComputedList_find_self x t g.nodes n h

theorem setLastComputedList_find_other (x k : String) (t : Nat) :
    ∀ l : List GraphNode, ∀ n,
      (setLastComputedList l x t).find? (fun m => m.id == k) = some n →
      (l.find? (fun m => m.id == k) = some n ∨
       ∃ m, l.find? (fun m2 => m2.id == k) = some m ∧
         n = { m with lastComputed := some t }) := by
  intro l
  induction l with
  | nil =>
    intro n h
    exact absurd h (by simp [setLastComputedList])
  | cons m ms ih =>
    intro n h
    rw [setLastComputedList] at h
    by_cases hx : m.id = x
    · have hb : (m.id == x) = true := by simp [hx]
      rw [hb] at h
      simp only [if_true] at h
      rw [List.find?_cons] at h
      by_cases hk : m.id = k
      · have hbk : (({ m with lastComputed := some t } : GraphNode).id == k) = true := by
          simp [hk]
        rw [hbk] at h
        simp only [cond_true] at h
        right
        refine ⟨m, ?_, by simpa using h.symm⟩
        rw [List.find?_cons]
        simp [hk]
      · have hbk : (({ m with lastComputed := some t } : GraphNode).id == k) = false := by
          simp [hk]
        rw [hbk] at h
        simp only [cond_false] at h
        left
        rw [List.find?_cons]
        have : (m.id == k) = false := by simp [hk]
        simp only [this, cond_false]
        exact h
    · have hb : (m.id == x) = false := by simp [hx]
      rw [hb] at h
      simp only [Bool.false_eq_true, if_false] at h
      rw [List.find?_cons] at h
      by_cases hk : m.id = k
      · have hbk : (m.id == k) = true := by simp [hk]
        rw [hbk] at h
        simp only [cond_true] at h
        left
        rw [List.find?_cons]
        simp only [hbk, cond_true]
        exact h
      · have hbk : (m.id == k) = false := by simp [hk]
        rw [hbk] at h
        simp only [cond_false] at h
        rcases ih n h with h1 | ⟨m2, hm2, hn⟩
        · left
          rw [List.find?_cons]
          simp only [hbk, cond_false]
          exact h1
        · right
          refine ⟨m2, ?_, hn⟩
          rw [List.find?_cons]
          simp only [hbk, cond_false]
          exact hm2

/-- "Has a `lastComputed` stamp" survives every engine graph write. -/
def LCSome (g : Graph) (k : String) : Prop :=
  ∃ n, findNode g k = some n ∧ ∃ t, n.lastComputed = some t

theorem lcSome_setLastComputed {g : Graph} {k : String} (x : String) (t : Nat)
    (h : LCSome g k) : LCSome (setLastComputed g x t) k := by
  obtain ⟨n, hf, t0, ht0⟩ := h
  by_cases hxk : x = k
  · subst hxk
    exact ⟨{ n with lastComputed := some t }, setLastComputed_find_self t hf,
      t, rfl⟩
  · cases hf' : findNode (setLastComputed g x t) k with
    | none =>
      obtain ⟨n', hn', _⟩ := findNode_shape_some (setLastComputed_shape g x t) hf
      rw [hf'] at hn'
      exact absurd hn' (by simp)
    | some n' =>
      rcases setLastComputedList_find_other x k t g.nodes n' hf' with h1 | ⟨m, hm, hn⟩
      · have h1a : findNode g k = some n' := h1
        rw [hf] at h1a
        have : n = n' := by simpa using h1a
        subst this
        exact ⟨n, hf', t0, ht0⟩
      · exact ⟨n', hf', t, by rw [hn]⟩

theorem lcSome_setLastComputed_self {g : Graph} {x : String} {n : GraphNode}
    (t : Nat) (hf : findNode g x = some n) :
    LCSome (setLastComputed g x t) x :=
  ⟨{ n with lastComputed := some t }, setLastComputed_find_self t hf, t, rfl⟩

/-! ## Cache coherence through `computeNode` -/

/-- The cache entry for `k` exists and carries the current version token
of the (present) node `k`. -/
def Coherent (g : Graph) (st : EngineState) (k : String) : Prop :=
  ∃ n r, findNode g k = some n ∧ lookupA st.cache k = some r ∧
    r.version = n.version

theorem coherent_shape {g h : Graph} {st st' : EngineState}
    (hs : SameShape g h) (hc : st'.cache = st.cache) {k : String}
    (h1 : Coherent g st k) : Coherent h st' k := by
  obtain ⟨n, r, hf, hl, hv⟩ := h1
  obtain ⟨n', hf', hsh⟩ := findNode_shape_some hs hf
  exact ⟨n', r, hf', hc ▸ hl, hv.trans (nodeShape_version hsh).symm⟩

/-- When the staleness oracle says "fresh", a cache entry exists with the
node's current version, and every present dependency is coherent. -/
theorem needsRecomputation_false {g : Graph}
    {cache : List (String × ComputationResult)} {node : GraphNode}
    (h : needsRecomputation g cache node = false) :
    ∃ c, lookupA cache node.id = some c ∧ c.version = node.version ∧
      ∀ d ∈ getDependencies g node.id, ∀ dn, findNode g d = some dn →
        ∃ dr, lookupA cache d = some dr ∧ dr.version = dn.version := by
  cases hc : lookupA cache node.id with
  | none => rw [needsRecomputation_none g cache node hc] at h; exact absurd h (by simp)
  | some cached =>
    rw [needsRecomputation_some g cache node cached hc] at h
    by_cases hv : (cached.version != node.version) = true
    · rw [if_pos hv] at h
      exact absurd h (by simp)
    · simp only [Bool.not_eq_true] at hv
      rw [hv] at h
      simp only [Bool.false_eq_true, if_false] at h
      have hany := List.any_eq_false.mp h
      refine ⟨cached, rfl, by simpa using hv, ?_⟩
      intro d hd dn hdn
      have := hany d hd
      unfold depCheck at this
      rw [hdn] at this
      cases hl : lookupA cache d with
      | none =>
        rw [hl] at this
        exact (this rfl).elim
      | some dr =>
        rw [hl] at this
        refine ⟨dr, rfl, ?_⟩
        simpa using this

/-! ## Postconditions of a successful `computeNode` -/

/-- Everything a successful `computeNode exec fuel g x st = ok (r, g2, st2)`
run guarantees:
1. the graph keeps its shape (only `lastComputed` stamps may change);
2. the executor log grows by entries for ids reachable from `x`, and every
   logged node carries a `lastComputed` stamp in the final graph;
3. a `lastComputed` stamp, once present, survives;
4. the cache holds the returned result for `x`, stamped with `x`'s
   current version token;
5. cache coherence of any id is preserved;
6. every present direct dependency of `x` ends up coherent. -/
def NodePost (g : Graph) (st : EngineState) (x : String)
    (r : ComputationResult) (g2 : Graph) (st2 : EngineState) : Prop :=
  SameShape g g2 ∧
  (∃ log, st2.execLog = st.execLog ++ log ∧
    (∀ p ∈ log, Reaches g x p.1) ∧
    (∀ p ∈ log, LCSome g2 p.1)) ∧
  (∀ k, LCSome g k → LCSome g2 k) ∧
  (lookupA st2.cache x = some r ∧
    ∃ n, findNode g x = some n ∧ r.version = n.version) ∧
  (∀ k, Coherent g st k → Coherent g2 st2 k) ∧
  (∀ d ∈ getDependencies g x, (findNode g d).isSome → Coherent g2 st2 d)

/-- The analogue for a successful dependency sweep `depsRun`. -/
def DepsPost (g : Graph) (st : EngineState) (ds : List String)
    (g2 : Graph) (st2 : EngineState) : Prop :=
  SameShape g g2 ∧
  (∃ log, st2.execLog = st.execLog ++ log ∧
    (∀ p ∈ log, ∃ d ∈ ds, Reaches g d p.1) ∧
    (∀ p ∈ log, LCSome g2 p.1)) ∧
  (∀ k, LCSome g k → LCSome g2 k) ∧
  (∀ k, Coherent g st k → Coherent g2 st2 k) ∧
  (∀ d ∈ ds, Coherent g2 st2 d)

theorem findNode_id {g : Graph} {x : String} {n : GraphNode}
    (h : findNode g x = some n) : n.id = x := by
  have := List.find?_some (p := fun (n : GraphNode) => n.id == x) h
  simpa using this

theorem depsPost_nil (g : Graph) (st : EngineState) : DepsPost g st [] g st :=
  ⟨sameShape_refl g,
    ⟨[], by simp, fun p hp => absurd hp (List.not_mem_nil p),
      fun p hp => absurd hp (List.not_mem_nil p)⟩,
    fun _ h => h, fun _ h => h,
    fun d hd => absurd hd (List.not_mem_nil d)⟩

/-- The write step at the end of the stale path preserves coherence. -/
theorem coherent_write_step (g1 : Graph) (st1 : EngineState) (x : String)
    (node1 : GraphNode) (hf1 : findNode g1 x = some node1)
    (result : ComputationResult) (hver : result.version = node1.version)
    (t : Nat) (st2 : EngineState) (hc2 : st2.cache = updateA st1.cache x result)
    (k : String) (h : Coherent g1 st1 k) :
    Coherent (setLastComputed g1 x t) st2 k := by
  obtain ⟨n1, r1, hfk, hlk, hv1⟩ := h
  obtain ⟨n1', hfk', hsh⟩ := findNode_shape_some (setLastComputed_shape g1 x t) hfk
  by_cases hkx : k = x
  · subst hkx
    rw [hf1] at hfk
    have hn : node1 = n1 := by simpa using hfk
    subst hn
    refine ⟨n1', result, hfk', ?_, ?_⟩
    · rw [hc2, lookupA_updateA_self]
    · rw [hver, nodeShape_version hsh]
  · refine ⟨n1', r1, hfk', ?_, hv1.trans (nodeShape_version hsh).symm⟩
    rw [hc2, lookupA_updateA_ne _ _ _ _ hkx]
    exact hlk

theorem computeNode_post_bundle
    (exec : GraphNode → List (String × Value) → List (String × Value)) :
    ∀ fuel,
      (∀ g x st r g2 st2,
        computeNode exec fuel g x st = .ok (r, g2, st2) →
        NodePost g st x r g2 st2) ∧
      (∀ ds g st g2 st2,
        depsRun (computeNode exec fuel) ds g st = .ok (g2, st2) →
        DepsPost g st ds g2 st2) := by
  intro fuel
  induction fuel with
  | zero =>
    constructor
    · intro g x st r g2 st2 h
      exact absurd h (by simp [computeNode])
    · intro ds g st g2 st2 h
      cases ds with
      | nil =>
        rw [depsRun] at h
        simp only [Res.ok.injEq, Prod.mk.injEq] at h
        rw [← h.1, ← h.2]
        exact depsPost_nil g st
      | cons d ds =>
        have hdiv : computeNode exec 0 g d st = .diverge := by
          simp [computeNode]
        rw [depsRun, hdiv] at h
        exact absurd h (by simp)
  | succ fuel ih =>
    have hN : ∀ g x st r g2 st2,
        computeNode exec (fuel + 1) g x st = .ok (r, g2, st2) →
        NodePost g st x r g2 st2 := by
      intro g x st r g2 st2 h
      rw [computeNode] at h
      cases hf : findNode g x with
      | none =>
        simp only [hf] at h
        exact absurd h (by simp)
      | some node =>
        simp only [hf] at h
        have hid : node.id = x := findNode_id hf
        by_cases hnr : needsRecomputation g st.cache node = true
        · rw [if_pos hnr] at h
          cases hdr : depsRun (computeNode exec fuel) (getDependencies g x) g st with
          | ok gs =>
            obtain ⟨g1, st1⟩ := gs
            simp only [hdr, Res.ok.injEq, Prod.mk.injEq] at h
            obtain ⟨hr, hg2, hst2⟩ := h
            obtain ⟨hshape1, ⟨log1, hlog1, hreach1, hlc1⟩, hlcmono1, hcoh1, hdcoh1⟩ :=
              ih.2 _ _ _ _ _ hdr
            obtain ⟨node1, hf1, hshn1⟩ := findNode_shape_some hshape1 hf
            subst hr hg2 hst2
            have hverr : (executeNode exec st1.now node
                (getNodeInputs g1 x st1.store)).version = node1.version := by
              show node.version = node1.version
              exact (nodeShape_version hshn1).symm
            have hstep : ∀ k, Coherent g1 st1 k →
                Coherent (setLastComputed g1 x (st1.now + 1))
                  { cache := updateA st1.cache x (executeNode exec st1.now node
                      (getNodeInputs g1 x st1.store)),
                    store := updateA st1.store x (executeNode exec st1.now node
                      (getNodeInputs g1 x st1.store)),
                    execLog := st1.execLog ++ [(x, getNodeInputs g1 x st1.store)],
                    now := st1.now + 2 } k := by
              intro k hk
              exact coherent_write_step g1 st1 x node1 hf1 _ hverr _ _ rfl k hk
            refine ⟨?_, ?_, ?_, ?_, ?_, ?_⟩
            · exact sameShape_trans hshape1 (setLastComputed_shape g1 x (st1.now + 1))
            · refine ⟨log1 ++ [(x, getNodeInputs g1 x st1.store)], ?_, ?_, ?_⟩
              · show st1.execLog ++ [(x, getNodeInputs g1 x st1.store)] =
                  st.execLog ++ (log1 ++ [(x, getNodeInputs g1 x st1.store)])
                rw [hlog1, List.append_assoc]
              · intro p hp
                rcases List.mem_append.mp hp with hp | hp
                · obtain ⟨d, hd, hrd⟩ := hreach1 p hp
                  exact Relation.ReflTransGen.head (depStep_of_mem hd) hrd
                · have hpx : p = (x, getNodeInputs g1 x st1.store) := by simpa using hp
                  rw [hpx]
                  exact Relation.ReflTransGen.refl
              · intro p hp
                rcases List.mem_append.mp hp with hp | hp
                · exact lcSome_setLastComputed x (st1.now + 1) (hlc1 p hp)
                · have hpx : p = (x, getNodeInputs g1 x st1.store) := by simpa using hp
                  rw [hpx]
                  exact lcSome_setLastComputed_self (st1.now + 1) hf1
            · intro k hk
              exact lcSome_setLastComputed x (st1.now + 1) (hlcmono1 k hk)
            · constructor
              · show lookupA (updateA st1.cache x (executeNode exec st1.now node
                  (getNodeInputs g1 x st1.store))) x = _
                rw [lookupA_updateA_self]
              · exact ⟨node, hf, rfl⟩
            · intro k hk
              exact hstep k (hcoh1 k hk)
            · intro d hd _
              exact hstep d (hdcoh1 d hd)
          | err e ge se =>
            simp only [hdr] at h
            exact absurd h (by simp)
          | diverge =>
            simp only [hdr] at h
            exact absurd h (by simp)
        · rw [if_neg hnr] at h
          have hnrf : needsRecomputation g st.cache node = false := by
            simpa using hnr
          obtain ⟨c, hcache, hcver, hdeps⟩ := needsRecomputation_false hnrf
          rw [hid] at hcache
          simp only [hcache, Res.ok.injEq, Prod.mk.injEq] at h
          obtain ⟨hr, hg2, hst2⟩ := h
          subst hr hg2 hst2
          refine ⟨sameShape_refl g, ⟨[], by simp,
            fun p hp => absurd hp (List.not_mem_nil p),
            fun p hp => absurd hp (List.not_mem_nil p)⟩,
            fun _ hk => hk, ⟨hcache, node, hf, hcver⟩,
            fun _ hk => hk, ?_⟩
          intro d hd hdsome
          rcases Option.isSome_iff_exists.mp hdsome with ⟨dn, hdn⟩
          obtain ⟨dr, hdr, hdv⟩ := hdeps d (hid ▸ hd) dn hdn
          exact ⟨dn, dr, hdn, hdr, hdv⟩
    refine ⟨hN, ?_⟩
    intro ds
    induction ds with
    | nil =>
      intro g st g2 st2 h
      rw [depsRun] at h
      simp only [Res.ok.injEq, Prod.mk.injEq] at h
      rw [← h.1, ← h.2]
      exact depsPost_nil g st
    | cons d ds ihds =>
      intro g st g2 st2 h
      rw [depsRun] at h
      cases hd : computeNode exec (fuel + 1) g d st with
      | ok rgs =>
        obtain ⟨r1, g1, st1⟩ := rgs
        simp only [hd] at h
        obtain ⟨hshape1, ⟨log1, hlog1, hreach1, hlc1⟩, hlcmono1,
          ⟨hcache1, n, hfn, hver1⟩, hcoh1, _⟩ := hN _ _ _ _ _ _ hd
        obtain ⟨hshape2, ⟨log2, hlog2, hreach2, hlc2⟩, hlcmono2, hcoh2, hdcoh2⟩ :=
          ihds _ _ _ _ h
        have hcohd1 : Coherent g1 st1 d := by
          obtain ⟨n', hfn', hshn⟩ := findNode_shape_some hshape1 hfn
          exact ⟨n', r1, hfn', hcache1, hver1.trans (nodeShape_version hshn).symm⟩
        refine ⟨sameShape_trans hshape1 hshape2, ⟨log1 ++ log2, ?_, ?_, ?_⟩,
          ?_, ?_, ?_⟩
        · rw [hlog2, hlog1, List.append_assoc]
        · intro p hp
          rcases List.mem_append.mp hp with hp | hp
          · exact ⟨d, List.mem_cons_self d ds, hreach1 p hp⟩
          · obtain ⟨d', hd', hrd'⟩ := hreach2 p hp
            exact ⟨d', List.mem_cons_of_mem d hd', reaches_shape hshape1 hrd'⟩
        · intro p hp
          rcases List.mem_append.mp hp with hp | hp
          · exact hlcmono2 _ (hlc1 p hp)
          · exact hlc2 p hp
        · intro k hk
          exact hlcmono2 k (hlcmono1 k hk)
        · intro k hk
          exact hcoh2 k (hcoh1 k hk)
        · intro d' hd'
          rcases List.mem_cons.mp hd' with hd' | hd'
          · rw [hd']
            exact hcoh2 d hcohd1
          · exact hdcoh2 d' hd'
      | err e ge se =>
        simp only [hd] at h
        exact absurd h (by simp)
      | diverge =>
        simp only [hd] at h
        exact absurd h (by simp)

/-! ## Fuel monotonicity of `computeNode` -/

theorem computeNode_mono_bundle
    (exec : GraphNode → List (String × Value) → List (String × Value)) :
    ∀ fuel,
      (∀ g x st, computeNode exec fuel g x st ≠ .diverge →
        computeNode exec (fuel + 1) g x st = computeNode exec fuel g x st) ∧
      (∀ ds g st, depsRun (computeNode exec fuel) ds g st ≠ .diverge →
        depsRun (computeNode exec (fuel + 1)) ds g st =
          depsRun (computeNode exec fuel) ds g st) := by
  intro fuel
  induction fuel with
  | zero =>
    constructor
    · intro g x st h
      exact absurd (by simp [computeNode]) h
    · intro ds g st h
      cases ds with
      | nil => rfl
      | cons d ds =>
        have hdiv : computeNode exec 0 g d st = .diverge := by
          simp [computeNode]
        rw [depsRun, hdiv] at h
        exact absurd rfl h
  | succ fuel ih =>
    have hV : ∀ g x st, computeNode exec (fuel + 1) g x st ≠ .diverge →
        computeNode exec (fuel + 2) g x st =
          computeNode exec (fuel + 1) g x st := by
      intro g x st h
      rw [computeNode] at h
      rw [computeNode, computeNode]
      cases hf : findNode g x with
      | none => simp only [hf]
      | some node =>
        simp only [hf] at h ⊢
        by_cases hnr : needsRecomputation g st.cache node = true
        · rw [if_pos hnr] at h
          rw [if_pos hnr, if_pos hnr]
          have hdnd : depsRun (computeNode exec fuel) (getDependencies g x) g st ≠
              .diverge := by
            intro hdiv
            rw [hdiv] at h
            exact h rfl
          rw [ih.2 _ _ _ hdnd]
        · rw [if_neg hnr] at h
          rw [if_neg hnr, if_neg hnr]
          cases hc : lookupA st.cache x with
          | some cached => simp only [hc]
          | none =>
            simp only [hc] at h ⊢
            cases hs : lookupA st.store x with
            | some stored => simp only [hs]
            | none =>
              simp only [hs] at h ⊢
              try exact ih.1 _ _ _ h
    refine ⟨hV, ?_⟩
    intro ds
    induction ds with
    | nil =>
      intro g st _
      rfl
    | cons d ds ihds =>
      intro g st h
      rw [depsRun] at h
      rw [depsRun, depsRun]
      have hvd : computeNode exec (fuel + 1) g d st ≠ .diverge := by
        intro hdiv
        rw [hdiv] at h
        exact h rfl
      rw [hV _ _ _ hvd]
      cases hv : computeNode exec (fuel + 1) g d st with
      | ok rgs =>
        obtain ⟨r1, g1, st1⟩ := rgs
        rw [hv] at h
        have h1 : depsRun (computeNode exec (fuel + 1)) ds g1 st1 ≠
            .diverge := h
        exact ihds _ _ h1
      | err e ge se => rfl
      | diverge => exact absurd hv hvd

theorem computeNode_mono_le
    (exec : GraphNode → List (String × Value) → List (String × Value))
    {fuel fuel' : Nat} (hle : fuel ≤ fuel') :
    ∀ g x st, computeNode exec fuel g x st ≠ .diverge →
      computeNode exec fuel' g x st = computeNode exec fuel g x st := by
  induction fuel' with
  | zero =>
    intro g x st h
    have : fuel = 0 := Nat.le_zero.mp hle
    rw [this]
  | succ fuel' ihf =>
    intro g x st h
    rcases Nat.lt_or_ge fuel (fuel' + 1) with hlt | hge
    · have hle2 : fuel ≤ fuel' := Nat.lt_succ_iff.mp hlt
      have heq := ihf hle2 g x st h
      have hnd : computeNode exec fuel' g x st ≠ .diverge := by
        rw [heq]
        exact h
      rw [(computeNode_mono_bundle exec fuel').1 g x st hnd, heq]
    · have : fuel = fuel' + 1 := Nat.le_antisymm hle hge
      rw [this]

theorem depsRun_mono_le
    (exec : GraphNode → List (String × Value) → List (String × Value))
    {fuel fuel' : Nat} (hle : fuel ≤ fuel') :
    ∀ ds g st, depsRun (computeNode exec fuel) ds g st ≠ .diverge →
      depsRun (computeNode exec fuel') ds g st =
        depsRun (computeNode exec fuel) ds g st := by
  intro ds
  induction ds with
  | nil =>
    intro g st _
    rfl
  | cons d ds ihds =>
    intro g st h
    rw [depsRun] at h
    rw [depsRun, depsRun]
    have hvd : computeNode exec fuel g d st ≠ .diverge := by
      intro hdiv
      rw [hdiv] at h
      exact h rfl
    rw [computeNode_mono_le exec hle _ _ _ hvd]
    cases hv : computeNode exec fuel g d st with
    | ok rgs =>
      obtain ⟨r1, g1, st1⟩ := rgs
      rw [hv] at h
      have h1 : depsRun (computeNode exec fuel) ds g1 st1 ≠ .diverge := h
      exact ihds _ _ h1
    | err e ge se => rfl
    | diverge => exact absurd hv hvd

/-! ## Completeness: accessible, well-formed nodes compute successfully -/

theorem depsRun_complete
    (exec : GraphNode → List (String × Value) → List (String × Value))
    (g : Graph) :
    ∀ ds : List String,
      (∀ d ∈ ds, ∀ (h : Graph) (st : EngineState), SameShape g h →
        ∃ fuel r h2 st2, computeNode exec fuel h d st = .ok (r, h2, st2)) →
      ∀ (h : Graph) (st : EngineState), SameShape g h →
        ∃ fuel h2 st2,
          depsRun (computeNode exec fuel) ds h st = .ok (h2, st2) ∧
          SameShape g h2 := by
  intro ds
  induction ds with
  | nil =>
    intro _ h st hs
    exact ⟨0, h, st, rfl, hs⟩
  | cons d ds ihds =>
    intro hprem h st hs
    obtain ⟨fuel1, r1, h1, st1, hok1⟩ :=
      hprem d (List.mem_cons_self d ds) h st hs
    have hshape1 : SameShape g h1 :=
      sameShape_trans hs ((computeNode_post_bundle exec fuel1).1 _ _ _ _ _ _ hok1).1
    obtain ⟨fuel2, h2, st2, hok2, hshape2⟩ :=
      ihds (fun d' hd' => hprem d' (List.mem_cons_of_mem d hd')) h1 st1 hshape1
    refine ⟨max fuel1 fuel2, h2, st2, ?_, hshape2⟩
    rw [depsRun]
    have hok1m : computeNode exec (max fuel1 fuel2) h d st = .ok (r1, h1, st1) := by
      rw [computeNode_mono_le exec (Nat.le_max_left fuel1 fuel2) _ _ _
        (by rw [hok1]; simp), hok1]
    simp only [hok1m]
    rw [depsRun_mono_le exec (Nat.le_max_right fuel1 fuel2) _ _ _
      (by rw [hok2]; simp), hok2]

theorem computeNode_complete
    (exec : GraphNode → List (String × Value) → List (String × Value))
    (g : Graph) (hwf : WellFormed g) :
    ∀ x, Acc (fun d y => depStep g y d) x →
      x ∈ g.nodes.map GraphNode.id →
      ∀ (h : Graph) (st : EngineState), SameShape g h →
        ∃ fuel r h2 st2, computeNode exec fuel h x st = .ok (r, h2, st2) := by
  intro x hacc
  induction hacc with
  | intro x _ ihacc =>
    intro hxid h st hs
    have hfg : (findNode g x).isSome := by
      rcases List.mem_map.mp hxid with ⟨n, hn, hnid⟩
      exact List.find?_isSome.mpr ⟨n, hn, by simp [hnid]⟩
    obtain ⟨node, hfgx⟩ := Option.isSome_iff_exists.mp hfg
    obtain ⟨node', hfh, _⟩ := findNode_shape_some hs hfgx
    by_cases hnr : needsRecomputation h st.cache node' = true
    · have hdeps : ∀ d ∈ getDependencies g x,
          ∀ (h' : Graph) (st' : EngineState), SameShape g h' →
            ∃ fuel r h2 st2, computeNode exec fuel h' d st' = .ok (r, h2, st2) := by
        intro d hd
        exact ihacc d (depStep_of_mem hd) (wellFormed_dep_mem hwf hd)
      obtain ⟨fuelD, h1, st1, hokD, _⟩ :=
        depsRun_complete exec g (getDependencies g x) hdeps h st hs
      refine ⟨fuelD + 1,
        executeNode exec st1.now node' (getNodeInputs h1 x st1.store),
        setLastComputed h1 x (st1.now + 1),
        { cache := updateA st1.cache x (executeNode exec st1.now node'
            (getNodeInputs h1 x st1.store)),
          store := updateA st1.store x (executeNode exec st1.now node'
            (getNodeInputs h1 x st1.store)),
          execLog := st1.execLog ++ [(x, getNodeInputs h1 x st1.store)],
          now := st1.now + 2 }, ?_⟩
      rw [computeNode]
      simp only [hfh, if_pos hnr, getDependencies_shape hs, hokD]
    · have hnrf : needsRecomputation h st.cache node' = false := by
        simpa using hnr
      obtain ⟨c, hcache, _, _⟩ := needsRecomputation_false hnrf
      rw [findNode_id hfh] at hcache
      refine ⟨1, c, h, st, ?_⟩
      rw [computeNode]
      simp only [hfh, if_neg hnr, hcache]
      try rfl

/-! ## Accessibility from a topological order -/

theorem acc_of_topo_aux (g : Graph) (order : List String)
    (hgood : GoodRes g order) :
    ∀ k, ∀ y ∈ order, order.indexOf y < k →
      Acc (fun d y2 => depStep g y2 d) y := by
  intro k
  induction k with
  | zero =>
    intro y _ h
    exact absurd h (Nat.not_lt_zero _)
  | succ k ihk =>
    intro y hy hidx
    constructor
    intro d hd
    have hdord : d ∈ order := hgood.1 y hy d hd
    have hlt : order.indexOf d < order.indexOf y :=
      topoSorted_idxOf_lt g order hgood.2.1 hgood.2.2.1 hgood.2.2.2 y hy d hd hdord
    exact ihk d hdord (by omega)

theorem acc_of_topo (g : Graph) (order : List String) (hgood : GoodRes g order) :
    ∀ y ∈ order, Acc (fun d y2 => depStep g y2 d) y := by
  intro y hy
  exact acc_of_topo_aux g order hgood (order.indexOf y + 1) y hy (Nat.lt_succ_self _)

theorem reaches_mem_ids {g : Graph} (hwf : WellFormed g) {x z : String}
    (hx : x ∈ g.nodes.map GraphNode.id) (hr : Reaches g x z) :
    z ∈ g.nodes.map GraphNode.id := by
  induction hr with
  | refl => exact hx
  | tail _ hstep ih => exact wellFormed_dep_mem hwf hstep

/-! ## Keys and frame of the `computeGraph` collection loop -/

theorem lookupA_none_iff {β : Type} (m : List (String × β)) (k : String) :
    lookupA m k = none ↔ k ∉ m.map Prod.fst := by
  unfold lookupA
  constructor
  · intro h hk
    rcases List.mem_map.mp hk with ⟨p, hp, hpk⟩
    rw [Option.map_eq_none'] at h
    have := List.find?_eq_none.mp h p hp
    exact this (by simp [hpk])
  · intro h
    rw [Option.map_eq_none', List.find?_eq_none]
    intro p hp hpk
    exact h (List.mem_map.mpr ⟨p, hp, by simpa using hpk⟩)

theorem updateA_not_mem {β : Type} (m : List (String × β)) (k : String) (v : β)
    (h : k ∉ m.map Prod.fst) : updateA m k v = m ++ [(k, v)] := by
  unfold updateA
  rw [if_neg]
  intro hsome
  rcases Option.isSome_iff_exists.mp hsome with ⟨p, hp⟩
  have hpk : (p.1 == k) = true :=
    List.find?_some (p := fun (p : String × β) => p.1 == k) hp
  exact h (List.mem_map.mpr ⟨p, List.mem_of_find?_eq_some hp, by simpa using hpk⟩)

theorem computeGraphGo_keys
    (exec : GraphNode → List (String × Value) → List (String × Value))
    (fuel : Nat) :
    ∀ (order : List String) (g : Graph) (st : EngineState) results results2 g2 st2,
      computeGraphGo exec fuel order g st results = .ok (results2, g2, st2) →
      order.Nodup → (∀ y ∈ order, y ∉ results.map Prod.fst) →
      results2.map Prod.fst = results.map Prod.fst ++ order := by
  intro order
  induction order with
  | nil =>
    intro g st results results2 g2 st2 h _ _
    rw [computeGraphGo] at h
    simp only [Res.ok.injEq, Prod.mk.injEq] at h
    rw [← h.1]
    simp
  | cons y rest ihord =>
    intro g st results results2 g2 st2 h hnd hfresh
    rw [computeGraphGo] at h
    cases hy : computeNode exec fuel g y st with
    | ok rgs =>
      obtain ⟨r1, g1, st1⟩ := rgs
      simp only [hy] at h
      have hynot : y ∉ results.map Prod.fst :=
        hfresh y (List.mem_cons_self y rest)
      have hupd : updateA results y r1 = results ++ [(y, r1)] :=
        updateA_not_mem results y r1 hynot
      have := ihord g1 st1 (updateA results y r1) results2 g2 st2 h
        (List.nodup_cons.mp hnd).2 ?_
      · rw [this, hupd]
        simp
      · intro z hz
        rw [hupd]
        simp only [List.map_append, List.mem_append, List.map_cons, List.map_nil]
        rintro (hz1 | hz2)
        · exact hfresh z (List.mem_cons_of_mem y hz) hz1
        · have hzy : z = y := by simpa using hz2
          exact (List.nodup_cons.mp hnd).1 (hzy ▸ hz)
    | err e ge se =>
      simp only [hy] at h
      exact absurd h (by simp)
    | diverge =>
      simp only [hy] at h
      exact absurd h (by simp)

theorem computeGraphGo_post
    (exec : GraphNode → List (String × Value) → List (String × Value))
    (fuel : Nat) :
    ∀ (order : List String) (g : Graph) (st : EngineState) results results2 g2 st2,
      computeGraphGo exec fuel order g st results = .ok (results2, g2, st2) →
      SameShape g g2 ∧
      (∃ log, st2.execLog = st.execLog ++ log ∧ (∀ p ∈ log, LCSome g2 p.1)) ∧
      (∀ k, LCSome g k → LCSome g2 k) := by
  intro order
  induction order with
  | nil =>
    intro g st results results2 g2 st2 h
    rw [computeGraphGo] at h
    simp only [Res.ok.injEq, Prod.mk.injEq] at h
    rw [← h.2.1, ← h.2.2]
    exact ⟨sameShape_refl g, ⟨[], by simp,
      fun p hp => absurd hp (List.not_mem_nil p)⟩, fun _ hk => hk⟩
  | cons y rest ihord =>
    intro g st results results2 g2 st2 h
    rw [computeGraphGo] at h
    cases hy : computeNode exec fuel g y st with
    | ok rgs =>
      obtain ⟨r1, g1, st1⟩ := rgs
      simp only [hy] at h
      obtain ⟨hshape1, ⟨log1, hlog1, _, hlc1⟩, hlcmono1, _, _, _⟩ :=
        (computeNode_post_bundle exec fuel).1 _ _ _ _ _ _ hy
      obtain ⟨hshape2, ⟨log2, hlog2, hlc2⟩, hlcmono2⟩ := ihord _ _ _ _ _ _ h
      refine ⟨sameShape_trans hshape1 hshape2, ⟨log1 ++ log2, ?_, ?_⟩, ?_⟩
      · rw [hlog2, hlog1, List.append_assoc]
      · intro p hp
        rcases List.mem_append.mp hp with hp | hp
        · exact hlcmono2 _ (hlc1 p hp)
        · exact hlc2 p hp
      · intro k hk
        exact hlcmono2 k (hlcmono1 k hk)
    | err e ge se =>
      simp only [hy] at h
      exact absurd h (by simp)
    | diverge =>
      simp only [hy] at h
      exact absurd h (by simp)

theorem computeGraphGo_mono_le
    (exec : GraphNode → List (String × Value) → List (String × Value))
    {fuel fuel' : Nat} (hle : fuel ≤ fuel') :
    ∀ order g st results,
      computeGraphGo exec fuel order g st results ≠ .diverge →
      computeGraphGo exec fuel' order g st results =
        computeGraphGo exec fuel order g st results := by
  intro order
  induction order with
  | nil =>
    intro g st results _
    rfl
  | cons y rest ihord =>
    intro g st results h
    rw [computeGraphGo] at h
    rw [computeGraphGo, computeGraphGo]
    have hvd : computeNode exec fuel g y st ≠ .diverge := by
      intro hdiv
      rw [hdiv] at h
      exact h rfl
    rw [computeNode_mono_le exec hle _ _ _ hvd]
    cases hv : computeNode exec fuel g y st with
    | ok rgs =>
      obtain ⟨r1, g1, st1⟩ := rgs
      rw [hv] at h
      have h1 : computeGraphGo exec fuel rest g1 st1 (updateA results y r1) ≠
          .diverge := h
      exact ihord _ _ _ h1
    | err e ge se => rfl
    | diverge => exact absurd hv hvd

theorem computeGraphGo_complete
    (exec : GraphNode → List (String × Value) → List (String × Value))
    (g : Graph) (hwf : WellFormed g) :
    ∀ order : List String,
      (∀ y ∈ order, y ∈ g.nodes.map GraphNode.id ∧
        Acc (fun d y2 => depStep g y2 d) y) →
      ∀ (h : Graph) (st : EngineState) results, SameShape g h →
        ∃ fuel results2 h2 st2,
          computeGraphGo exec fuel order h st results = .ok (results2, h2, st2) ∧
          SameShape g h2 := by
  intro order
  induction order with
  | nil =>
    intro _ h st results hs
    exact ⟨0, results, h, st, rfl, hs⟩
  | cons y rest ihord =>
    intro hprem h st results hs
    obtain ⟨fuel1, r1, h1, st1, hok1⟩ :=
      computeNode_complete exec g hwf y
        (hprem y (List.mem_cons_self y rest)).2
        (hprem y (List.mem_cons_self y rest)).1 h st hs
    have hshape1 : SameShape g h1 :=
      sameShape_trans hs ((computeNode_post_bundle exec fuel1).1 _ _ _ _ _ _ hok1).1
    obtain ⟨fuel2, results2, h2, st2, hok2, hshape2⟩ :=
      ihord (fun y' hy' => hprem y' (List.mem_cons_of_mem y hy'))
        h1 st1 (updateA results y r1) hshape1
    refine ⟨max fuel1 fuel2, results2, h2, st2, ?_, hshape2⟩
    rw [computeGraphGo]
    have hok1m : computeNode exec (max fuel1 fuel2) h y st = .ok (r1, h1, st1) := by
      rw [computeNode_mono_le exec (Nat.le_max_left fuel1 fuel2) _ _ _
        (by rw [hok1]; simp), hok1]
    simp only [hok1m]
    rw [computeGraphGo_mono_le exec (Nat.le_max_right fuel1 fuel2) _ _ _ _
      (by rw [hok2]; simp), hok2]

/-! ## The fresh path of `computeNode` -/

/-- A fresh node is served from the transient cache in one step: the
durable-store fallback and the trailing recursive retry are dead code. -/
theorem computeNode_fresh
    (exec : GraphNode → List (String × Value) → List (String × Value))
    (fuel : Nat) (g : Graph) (x : String) (st : EngineState)
    (node : GraphNode) (hf : findNode g x = some node)
    (hnr : needsRecomputation g st.cache node = false) :
    ∃ c, lookupA st.cache x = some c ∧
      computeNode exec (fuel + 1) g x st = .ok (c, g, st) := by
  obtain ⟨c, hcache, _, _⟩ := needsRecomputation_false hnr
  rw [findNode_id hf] at hcache
  refine ⟨c, hcache, ?_⟩
  rw [computeNode]
  simp only [hf, hnr, Bool.false_eq_true, if_false, hcache]

theorem depCheck_false_of_coherent {g : Graph} {st : EngineState} {d : String}
    (h : Coherent g st d) : depCheck g st.cache d = false := by
  obtain ⟨n, r, hf, hl, hv⟩ := h
  unfold depCheck
  rw [hf, hl]
  simp [hv]

theorem depCheck_false_of_absent {g : Graph}
    {cache : List (String × ComputationResult)} {d : String}
    (h : findNode g d = none) : depCheck g cache d = false := by
  unfold depCheck
  rw [h]

theorem needsRecomputation_false_intro (g : Graph)
    (cache : List (String × ComputationResult)) (node : GraphNode)
    (c : ComputationResult) (hc : lookupA cache node.id = some c)
    (hv : c.version = node.version)
    (hdeps : ∀ d ∈ getDependencies g node.id, depCheck g cache d = false) :
    needsRecomputation g cache node = false := by
  rw [needsRecomputation_some g cache node c hc]
  have hbne : (c.version != node.version) = false := by simp [hv]
  rw [hbne]
  simp only [Bool.false_eq_true, if_false]
  exact List.any_eq_false.mpr (fun d hd => by simp [hdeps d hd])

/-! ## Counting executor invocations -/

/-- How many times the log records an executor invocation for node `x`. -/
def execCount (log : List (String × List (String × Value))) (x : String) : Nat :=
  (log.filter (fun p => p.1 == x)).length

theorem execCount_append (a b : List (String × List (String × Value)))
    (x : String) : execCount (a ++ b) x = execCount a x + execCount b x := by
  unfold execCount
  rw [List.filter_append, List.length_append]

theorem execCount_zero (log : List (String × List (String × Value)))
    (x : String) (h : ∀ p ∈ log, p.1 ≠ x) : execCount log x = 0 := by
  unfold execCount
  rw [List.length_eq_zero, List.filter_eq_nil_iff]
  intro p hp
  simp [h p hp]

theorem execCount_single (x : String) (inputs : List (String × Value)) :
    execCount [(x, inputs)] x = 1 := by
  simp [execCount]

/-! ## Acyclicity consequences -/

theorem topologicalSort_acyclic (g : Graph) (hacyc : Acyclic g) (fuel : Nat)
    (hfuel : (idUniverse g).length + 1 ≤ fuel) :
    ∃ order, topologicalSort g fuel = .ok order := by
  cases h : topologicalSort g fuel with
  | ok order => exact ⟨order, rfl⟩
  | err e =>
    obtain ⟨c, _, hc⟩ := topologicalSort_err g fuel e h
    exact absurd hc (hacyc c)
  | diverge => exact absurd h (topologicalSort_no_diverge g fuel hfuel)

theorem acc_of_acyclic (g : Graph) (hacyc : Acyclic g) (x : String)
    (hx : x ∈ g.nodes.map GraphNode.id) :
    Acc (fun d y2 => depStep g y2 d) x := by
  obtain ⟨order, hord⟩ :=
    topologicalSort_acyclic g hacyc ((idUniverse g).length + 1) (Nat.le_refl _)
  obtain ⟨hmem, _, hgood⟩ := topologicalSort_ok g _ order hord
  rcases List.mem_map.mp hx with ⟨n, hn, hnid⟩
  exact acc_of_topo g order hgood x (hnid ▸ hmem n hn)

/-! ## Idempotence of `computeNode` -/

theorem computeNode_idempotent
    (exec : GraphNode → List (String × Value) → List (String × Value))
    (g : Graph) (x : String) (st : EngineState)
    (hacyc : Acyclic g) (hwf : WellFormed g)
    (hx : x ∈ g.nodes.map GraphNode.id) (hcold : st.cache = []) :
    ∃ fuel r g2 st2,
      computeNode exec fuel g x st = .ok (r, g2, st2) ∧
      execCount st2.execLog x = execCount st.execLog x + 1 ∧
      ∀ fuel2, computeNode exec (fuel2 + 1) g2 x st2 = .ok (r, g2, st2) := by
  have hacc := acc_of_acyclic g hacyc x hx
  obtain ⟨fuel, r, g2, st2, hok⟩ :=
    computeNode_complete exec g hwf x hacc hx g st (sameShape_refl g)
  have hfsome : (findNode g x).isSome := by
    rcases List.mem_map.mp hx with ⟨n, hn, hnid⟩
    exact List.find?_isSome.mpr ⟨n, hn, by simp [hnid]⟩
  obtain ⟨node, hf⟩ := Option.isSome_iff_exists.mp hfsome
  obtain ⟨hshape, _, _, ⟨hcache2, node0, hf0, hver⟩, _, hdcoh⟩ :=
    (computeNode_post_bundle exec fuel).1 _ _ _ _ _ _ hok
  have hnode0 : node = node0 := by
    rw [hf] at hf0
    simpa using hf0
  subst hnode0
  refine ⟨fuel, r, g2, st2, hok, ?_, ?_⟩
  · -- the executor runs for x exactly once in the first call
    cases fuel with
    | zero => exact absurd hok (by simp [computeNode])
    | succ fuelp =>
      rw [computeNode] at hok
      have hnr : needsRecomputation g st.cache node = true := by
        apply needsRecomputation_none
        rw [hcold]
        rfl
      simp only [hf] at hok
      rw [if_pos hnr] at hok
      cases hdr : depsRun (computeNode exec fuelp) (getDependencies g x) g st with
      | ok gs =>
        obtain ⟨g1, st1⟩ := gs
        simp only [hdr, Res.ok.injEq, Prod.mk.injEq] at hok
        obtain ⟨hr, hg2, hst2⟩ := hok
        obtain ⟨_, ⟨log1, hlog1, hreach1, _⟩, _, _, _⟩ :=
          (computeNode_post_bundle exec fuelp).2 _ _ _ _ _ hdr
        have hlog1x : ∀ p ∈ log1, p.1 ≠ x := by
          intro p hp hpx
          obtain ⟨d, hd, hrd⟩ := hreach1 p hp
          rw [hpx] at hrd
          exact hacyc x (Relation.TransGen.head' (depStep_of_mem hd) hrd)
        rw [← hst2]
        show execCount (st1.execLog ++ [(x, getNodeInputs g1 x st1.store)]) x =
          execCount st.execLog x + 1
        rw [execCount_append, hlog1, execCount_append,
          execCount_zero log1 x hlog1x, execCount_single]
      | err e ge se =>
        simp only [hdr] at hok
        exact absurd hok (by simp)
      | diverge =>
        simp only [hdr] at hok
        exact absurd hok (by simp)
  · -- the second call is a pure cache hit
    intro fuel2
    obtain ⟨node2, hf2, hsh2⟩ := findNode_shape_some hshape hf
    have hnr2 : needsRecomputation g2 st2.cache node2 = false := by
      apply needsRecomputation_false_intro g2 st2.cache node2 r
      · rw [findNode_id hf2]
        exact hcache2
      · exact hver.trans (nodeShape_version hsh2).symm
      · intro d hd
        rw [findNode_id hf2] at hd
        have hd0 : d ∈ getDependencies g x := by
          rwa [show getDependencies g2 = getDependencies g from
            getDependencies_shape hshape] at hd
        cases hfd : findNode g d with
        | none =>
          exact depCheck_false_of_absent (findNode_shape_none hshape hfd)
        | some dn =>
          exact depCheck_false_of_coherent (hdcoh d hd0 (by simp [hfd]))
    obtain ⟨c, hcl, heq⟩ := computeNode_fresh exec fuel2 g2 x st2 node2 hf2 hnr2
    rw [hcache2] at hcl
    have hcr : c = r := by simpa using hcl.symm
    rw [hcr] at heq
    exact heq

/-! ## `computeGraph` on acyclic well-formed graphs -/

theorem computeGraph_acyclic_complete
    (exec : GraphNode → List (String × Value) → List (String × Value))
    (g : Graph) (st : EngineState)
    (hacyc : Acyclic g) (hwf : WellFormed g) :
    ∃ fuel order results g2 st2,
      topologicalSort g fuel = .ok order ∧
      computeGraph exec fuel g st = .ok (results, g2, st2) ∧
      order.Nodup ∧
      (∀ z, z ∈ order ↔ z ∈ g.nodes.map GraphNode.id) ∧
      (∀ y ∈ order, ∀ d ∈ getDependencies g y,
        d ∈ order ∧ order.indexOf d < order.indexOf y) ∧
      results.map Prod.fst = order := by
  obtain ⟨order, hord⟩ :=
    topologicalSort_acyclic g hacyc ((idUniverse g).length + 1) (Nat.le_refl _)
  obtain ⟨hmem, hreach, hgood⟩ := topologicalSort_ok g _ order hord
  have hords : ∀ z ∈ order, z ∈ g.nodes.map GraphNode.id := by
    intro z hz
    obtain ⟨n, hn, hr⟩ := hreach z hz
    exact reaches_mem_ids hwf (List.mem_map.mpr ⟨n, hn, rfl⟩) hr
  have hprem : ∀ y ∈ order, y ∈ g.nodes.map GraphNode.id ∧
      Acc (fun d y2 => depStep g y2 d) y :=
    fun y hy => ⟨hords y hy, acc_of_topo g order hgood y hy⟩
  obtain ⟨fuelG, results, g2, st2, hgo, _⟩ :=
    computeGraphGo_complete exec g hwf order hprem g st [] (sameShape_refl g)
  have htopo : topologicalSort g (max ((idUniverse g).length + 1) fuelG) =
      .ok order := by
    rw [topologicalSort_mono_le g (Nat.le_max_left _ _) (by rw [hord]; simp),
      hord]
  have hgom : computeGraphGo exec (max ((idUniverse g).length + 1) fuelG)
      order g st [] = .ok (results, g2, st2) := by
    rw [computeGraphGo_mono_le exec (Nat.le_max_right _ _) _ _ _ _
      (by rw [hgo]; simp), hgo]
  refine ⟨max ((idUniverse g).length + 1) fuelG, order, results, g2, st2,
    htopo, ?_, hgood.2.1, ?_, ?_, ?_⟩
  · rw [computeGraph, htopo]
    exact hgom
  · intro z
    constructor
    · exact hords z
    · intro hz
      rcases List.mem_map.mp hz with ⟨n, hn, hnid⟩
      exact hnid ▸ hmem n hn
  · intro y hy d hd
    have hdord : d ∈ order := hgood.1 y hy d hd
    exact ⟨hdord,
      topoSorted_idxOf_lt g order hgood.2.1 hgood.2.2.1 hgood.2.2.2 y hy d hd hdord⟩
  · have := computeGraphGo_keys exec _ order g st [] results g2 st2 hgom
      hgood.2.1 (by simp)
    simpa using this

theorem mem_order_of_reaches {g : Graph} {order : List String}
    (hclosed : Closed g order) {x z : String} (hx : x ∈ order)
    (hr : Reaches g x z) : z ∈ order := by
  induction hr with
  | refl => exact hx
  | tail _ hstep ih => exact hclosed _ ih _ hstep

/-! ## `computeGraph` on graphs with a reachable cycle -/

theorem computeGraph_cycle
    (exec : GraphNode → List (String × Value) → List (String × Value))
    (g : Graph) (st : EngineState) (fuel : Nat)
    (hfuel : (idUniverse g).length + 1 ≤ fuel)
    (c : String) (n : GraphNode) (hn : n ∈ g.nodes)
    (hreach : Reaches g n.id c) (hcyc : OnCycle g c) :
    ∃ c2, OnCycle g c2 ∧
      topologicalSort g fuel = .err (.cycleDetected c2) ∧
      computeGraph exec fuel g st = .err (.cycleDetected c2) g st := by
  cases h : topologicalSort g fuel with
  | ok order =>
    obtain ⟨hmem, _, hgood⟩ := topologicalSort_ok g fuel order h
    have hcord : c ∈ order := mem_order_of_reaches hgood.1 (hmem n hn) hreach
    exact absurd hcyc (goodRes_no_cycle g order hgood c hcord)
  | err e =>
    obtain ⟨c2, he, hc2⟩ := topologicalSort_err g fuel e h
    subst he
    refine ⟨c2, hc2, rfl, ?_⟩
    rw [computeGraph, h]
  | diverge => exact absurd h (topologicalSort_no_diverge g fuel hfuel)

/-! ## Concrete graphs: the spec's scenarios and edge cases -/

/-- Node builder for the concrete scenarios. -/
def mkNode (i v : String) : GraphNode :=
  { id := i, version := v, config := "cfg:" ++ i, metadata := "meta:" ++ i,
    lastComputed := none }

/-- Connection builder for the concrete scenarios. -/
def mkConn (i s sp t tp : String) : Connection :=
  { id := i, sourceNodeId := s, sourcePort := sp, targetNodeId := t,
    targetPort := tp }

/-- A fresh engine: empty cache, empty durable store, empty log. -/
def stInit : EngineState := { cache := [], store := [], execLog := [], now := 100 }

/-- A de-facto executor for the scenarios: `input` yields `x = 5`, `add`
sums its `a` and `b` inputs into `sum`, anything else yields `out = 7`. -/
def execDemo : GraphNode → List (String × Value) → List (String × Value) :=
  fun node inputs =>
    if node.id = "input" then [("x", 5)]
    else if node.id = "add" then
      [("sum", ((lookupA inputs "a").getD 0) + ((lookupA inputs "b").getD 0))]
    else [("out", 7)]

/-- The single node of `gOne`. -/
def nOne : GraphNode := mkNode "n" "v1"

/-- A one-node graph with no connections. -/
def gOne : Graph :=
  { id := "g1", name := "one", nodes := [nOne], connections := [],
    createdAt := 0, updatedAt := 0 }

/-- The spec section 8 scenario graph: `Input.x` feeds both `Add.a` and
`Add.b`. -/
def gAdd : Graph :=
  { id := "g2", name := "demo",
    nodes := [mkNode "input" "v1", mkNode "add" "v1"],
    connections := [mkConn "c1" "input" "x" "add" "a",
      mkConn "c2" "input" "x" "add" "b"],
    createdAt := 0, updatedAt := 0 }

/-- Node `A` of the two-node cycle. -/
def cycA : GraphNode := mkNode "A" "v1"

/-- A two-node dependency cycle: `A` depends on `B` and `B` on `A`. -/
def gCyc : Graph :=
  { id := "g3", name := "cyc",
    nodes := [cycA, mkNode "B" "v1"],
    connections := [mkConn "c1" "A" "o" "B" "i", mkConn "c2" "B" "o" "A" "i"],
    createdAt := 0, updatedAt := 0 }

/-- A pre-stamped result for `A` matching its current version. -/
def resA : ComputationResult :=
  { nodeId := "A", outputs := [("o", 1)], version := "v1", timestamp := 50 }

/-- A pre-stamped result for `B` matching its current version. -/
def resB : ComputationResult :=
  { nodeId := "B", outputs := [("o", 2)], version := "v1", timestamp := 50 }

/-- An engine state whose cache already holds fresh results for `A` and
`B`. -/
def stWarm : EngineState :=
  { cache := [("A", resA), ("B", resB)], store := [], execLog := [], now := 100 }

/-- A warm state for the one-node graph. -/
def resN : ComputationResult :=
  { nodeId := "n", outputs := [("out", 7)], version := "v1", timestamp := 60 }

/-- An engine state whose cache already holds a fresh result for `n`. -/
def stWarmOne : EngineState :=
  { cache := [("n", resN)], store := [], execLog := [], now := 100 }

/-- A graph with a dangling connection: source id `X` names no node. -/
def gDang : Graph :=
  { id := "g4", name := "dang",
    nodes := [mkNode "B" "v1"],
    connections := [mkConn "c1" "X" "o" "B" "i"],
    createdAt := 0, updatedAt := 0 }

/-- First connection of the port-collision scenario: `A.out → B.in1`. -/
def connP1 : Connection := mkConn "c1" "A" "out" "B" "in1"

/-- Second connection of the port-collision scenario: `A.out2 → B.in1`,
declared last. -/
def connP2 : Connection := mkConn "c2" "A" "out2" "B" "in1"

/-- The port-collision graph of the spec's port-remapping scenario. -/
def gPort : Graph :=
  { id := "g5", name := "port",
    nodes := [mkNode "A" "v1", mkNode "B" "v1"],
    connections := [connP1, connP2],
    createdAt := 0, updatedAt := 0 }

/-- A stored result in which `A` has produced `out = 1` and `out2 = 2`. -/
def resAB : ComputationResult :=
  { nodeId := "A", outputs := [("out", 1), ("out2", 2)], version := "v1",
    timestamp := 10 }

/-- A store holding only that result for `A`. -/
def storePort : List (String × ComputationResult) := [("A", resAB)]

/-- Executor log of a graph-level outcome (mutations survive errors). -/
def graphLogOf : Res (List (String × ComputationResult) × Graph × EngineState) →
    List (String × List (String × Value))
  | .ok (_, _, st) => st.execLog
  | .err _ _ st => st.execLog
  | .diverge => []

/-- Results map of a graph-level outcome. -/
def graphResultsOf :
    Res (List (String × ComputationResult) × Graph × EngineState) →
    List (String × ComputationResult)
  | .ok (results, _, _) => results
  | _ => []

/-- Final graph of a graph-level outcome. -/
def graphGraphOf (fb : Graph)
    (r : Res (List (String × ComputationResult) × Graph × EngineState)) : Graph :=
  match r with
  | .ok (_, g, _) => g
  | .err _ g _ => g
  | .diverge => fb

/-- Final state of a graph-level outcome. -/
def graphStateOf (fb : EngineState)
    (r : Res (List (String × ComputationResult) × Graph × EngineState)) :
    EngineState :=
  match r with
  | .ok (_, _, st) => st
  | .err _ _ st => st
  | .diverge => fb

/-- First run of the spec scenario: full computation from a fresh engine. -/
def run1 : Res (List (String × ComputationResult) × Graph × EngineState) :=
  computeGraph execDemo 10 gAdd stInit

/-- The graph after the first run (`lastComputed` stamps added). -/
def g1After : Graph := graphGraphOf gAdd run1

/-- The engine state after the first run. -/
def st1After : EngineState := graphStateOf stInit run1

/-- The user mutation of the scenario: bump only `input`'s version token. -/
def bumpNode (n : GraphNode) : GraphNode :=
  if n.id = "input" then { n with version := "v2" } else n

def bumpInput (g : Graph) : Graph := { g with nodes := g.nodes.map bumpNode }

/-- Second run: after bumping only `input`'s version token. -/
def run2 : Res (List (String × ComputationResult) × Graph × EngineState) :=
  computeGraph execDemo 10 (bumpInput g1After) st1After

/-- The concrete result of `computeNode execDemo 5 gOne "n" stInit`. -/
def rOne : ComputationResult :=
  { nodeId := "n", outputs := [("out", 7)], version := "v1", timestamp := 100 }

/-- The graph `gOne` after that run (its node stamped at time 101). -/
def nOneAfter : GraphNode :=
  { id := "n", version := "v1", config := "cfg:n", metadata := "meta:n",
    lastComputed := some 101 }

def gOneAfter : Graph :=
  { id := "g1", name := "one", nodes := [nOneAfter], connections := [],
    createdAt := 0, updatedAt := 0 }

/-- The engine state after that run. -/
def stOneAfter : EngineState :=
  { cache := [("n", rOne)], store := [("n", rOne)],
    execLog := [("n", [])], now := 102 }

/-! ## Facts about the concrete graphs -/

theorem gOne_no_step : ∀ a b, ¬ depStep gOne a b := by
  intro a b h
  have h2 : b ∈ getDependencies gOne a := h
  rw [show getDependencies gOne a = [] from rfl] at h2
  exact List.not_mem_nil b h2

theorem gOne_acyclic : Acyclic gOne := by
  intro x hx
  cases hx with
  | single h => exact gOne_no_step _ _ h
  | tail _ h2 => exact gOne_no_step _ _ h2

theorem gOne_wellFormed : WellFormed gOne := by
  intro c hc
  exact absurd hc (List.not_mem_nil c)

theorem gCyc_onCycleA : OnCycle gCyc "A" := by
  have h1 : ("B" : String) ∈ getDependencies gCyc "A" := by decide
  have h2 : ("A" : String) ∈ getDependencies gCyc "B" := by decide
  exact Relation.TransGen.head h1 (Relation.TransGen.single h2)

theorem c2_cold_diverge_aux : ∀ fuel,
    computeNode execDemo fuel gCyc "A" stInit = .diverge ∧
    computeNode execDemo fuel gCyc "B" stInit = .diverge := by
  intro fuel
  induction fuel with
  | zero => exact ⟨rfl, rfl⟩
  | succ fuel ih =>
    constructor
    · rw [computeNode]
      simp only [show findNode gCyc "A" = some cycA from rfl]
      rw [if_pos (show needsRecomputation gCyc stInit.cache cycA = true from rfl)]
      rw [show getDependencies gCyc "A" = ["B"] from rfl, depsRun, ih.2]
    · rw [computeNode]
      simp only [show findNode gCyc "B" = some (mkNode "B" "v1") from rfl]
      rw [if_pos (show needsRecomputation gCyc stInit.cache (mkNode "B" "v1") =
        true from rfl)]
      rw [show getDependencies gCyc "B" = ["A"] from rfl, depsRun, ih.1]

/-! ## The claims -/

/-- C1 (code bug): the spec requires that bumping only `Input`'s version
token makes the next `computeGraph` re-execute both `Input` and `Add`
(transitive change propagation).  The code does not: recomputing `Input`
refreshes its cache entry to the new token before `Add` is checked, so the
one-hop staleness test finds `Add`'s input "unchanged" and serves `Add`'s
stale cached result.  On the spec's own section 8 scenario: after a full
first run (`input` and `add` each executed once, `sum = 10`), bumping only
`input`'s token (`v2`, `add` stays `v1`) and rerunning `computeGraph`
invokes the executor once more for `input` only — `add`'s total stays at
one invocation and its returned result still carries the old `v1` token. -/
theorem c1_change_propagation_code_bug :
    (graphLogOf run1).map Prod.fst = ["input", "add"] ∧
    (lookupA (graphResultsOf run1) "add").map
      (fun r => lookupA r.outputs "sum") = some (some 10) ∧
    (findNode (bumpInput g1After) "input").map GraphNode.version = some "v2" ∧
    (findNode (bumpInput g1After) "add").map GraphNode.version = some "v1" ∧
    (graphLogOf run2).map Prod.fst = ["input", "add", "input"] ∧
    execCount (graphLogOf run2) "input" = 2 ∧
    execCount (graphLogOf run2) "add" = 1 ∧
    (lookupA (graphResultsOf run2) "add").map ComputationResult.version =
      some "v1" := by
  decide

/-- C2 (counterexample): the claim says `computeNode` fails with
`CycleDetected` on every graph containing a reachable cycle; but
`computeNode` performs no cycle check at all, and on the two-node cycle
with a warm cache it silently succeeds, returning `A`'s cached result. -/
theorem c2_counterexample :
    OnCycle gCyc "A" ∧
    computeNode execDemo 1 gCyc "A" stWarm = .ok (resA, gCyc, stWarm) :=
  ⟨gCyc_onCycleA, by decide⟩

/-- C2 (amended): `computeGraph` fails fast with `CycleDetected` naming a
node on a cycle and leaves graph and state untouched (in particular the
executor is invoked zero times), for every graph with a cycle reachable
from some node and enough fuel; `computeNode`, by contrast, has no cycle
check: on the concrete two-node cycle from a cold cache its recursive
dependency descent never terminates (diverges at every fuel). -/
theorem c2_cycle_detection_amended :
    (∀ (exec : GraphNode → List (String × Value) → List (String × Value))
      (g : Graph) (st : EngineState) (fuel : Nat),
      (idUniverse g).length + 1 ≤ fuel →
      ∀ (c : String) (n : GraphNode), n ∈ g.nodes → Reaches g n.id c →
        OnCycle g c →
        ∃ c2, OnCycle g c2 ∧
          topologicalSort g fuel = .err (.cycleDetected c2) ∧
          computeGraph exec fuel g st = .err (.cycleDetected c2) g st) ∧
    (∀ fuel, computeNode execDemo fuel gCyc "A" stInit = .diverge) :=
  ⟨fun exec g st fuel hfuel c n hn hr hc =>
      computeGraph_cycle exec g st fuel hfuel c n hn hr hc,
    fun fuel => (c2_cold_diverge_aux fuel).1⟩

/-- Witness for C2's amended theorem, at the concrete two-node cycle. -/
theorem c2_cycle_detection_witness :
    ((idUniverse gCyc).length + 1 ≤ 10 ∧ cycA ∈ gCyc.nodes ∧
      Reaches gCyc cycA.id "A" ∧ OnCycle gCyc "A") ∧
    (∃ c2, OnCycle gCyc c2 ∧
      topologicalSort gCyc 10 = .err (.cycleDetected c2) ∧
      computeGraph execDemo 10 gCyc stInit =
        .err (.cycleDetected c2) gCyc stInit) :=
  ⟨⟨by decide, by decide, Relation.ReflTransGen.refl, gCyc_onCycleA⟩,
    c2_cycle_detection_amended.1 execDemo gCyc stInit 10 (by decide) "A" cycA
      (by decide) Relation.ReflTransGen.refl gCyc_onCycleA⟩

/-- C3 (confirmed): `needsRecomputation` returns `true` iff no cached
result exists for the node, or the cached result's captured version token
differs from the node's current token, or some direct dependency present
in the graph has no cached result or one whose captured token differs from
that dependency's current token; otherwise it returns `false` and
`computeNode` reuses the cached result without invoking the executor. -/
theorem c3_staleness_oracle :
    (∀ (g : Graph) (cache : List (String × ComputationResult))
      (node : GraphNode),
      needsRecomputation g cache node = true ↔
        (lookupA cache node.id = none ∨
         (∃ c, lookupA cache node.id = some c ∧ c.version ≠ node.version) ∨
         (∃ d, d ∈ getDependencies g node.id ∧
           ∃ dn, findNode g d = some dn ∧
             (lookupA cache d = none ∨
              ∃ dr, lookupA cache d = some dr ∧ dr.version ≠ dn.version)))) ∧
    (∀ (exec : GraphNode → List (String × Value) → List (String × Value))
      (fuel : Nat) (g : Graph) (x : String) (st : EngineState)
      (node : GraphNode), findNode g x = some node →
      needsRecomputation g st.cache node = false →
      ∃ c, lookupA st.cache x = some c ∧
        computeNode exec (fuel + 1) g x st = .ok (c, g, st)) :=
  ⟨needsRecomputation_eq_true_iff,
    fun exec fuel g x st node hf hnr =>
      computeNode_fresh exec fuel g x st node hf hnr⟩

/-- Witness for C3, at the one-node graph with a warm cache. -/
theorem c3_staleness_oracle_witness :
    (findNode gOne "n" = some nOne ∧
      needsRecomputation gOne stWarmOne.cache nOne = false) ∧
    (∃ c, lookupA stWarmOne.cache "n" = some c ∧
      computeNode execDemo 3 gOne "n" stWarmOne = .ok (c, gOne, stWarmOne)) :=
  ⟨⟨by decide, by decide⟩,
    c3_staleness_oracle.2 execDemo 2 gOne "n" stWarmOne nOne (by decide)
      (by decide)⟩

/-- C4 (confirmed): on an acyclic, well-formed graph, computing a present
node twice from a cold cache with no version mutation in between invokes
the executor for that node exactly once; the second call is a cache hit
that returns the same stored `ComputationResult` and changes nothing (in
particular it invokes the executor zero times). -/
theorem c4_idempotence
    (exec : GraphNode → List (String × Value) → List (String × Value))
    (g : Graph) (x : String) (st : EngineState)
    (hacyc : Acyclic g) (hwf : WellFormed g)
    (hx : x ∈ g.nodes.map GraphNode.id) (hcold : st.cache = []) :
    ∃ fuel r g2 st2,
      computeNode exec fuel g x st = .ok (r, g2, st2) ∧
      execCount st2.execLog x = execCount st.execLog x + 1 ∧
      ∀ fuel2, computeNode exec (fuel2 + 1) g2 x st2 = .ok (r, g2, st2) :=
  computeNode_idempotent exec g x st hacyc hwf hx hcold

/-- Witness for C4, at the one-node graph from a fresh engine. -/
theorem c4_idempotence_witness :
    (Acyclic gOne ∧ WellFormed gOne ∧
      "n" ∈ gOne.nodes.map GraphNode.id ∧ stInit.cache = []) ∧
    (∃ fuel r g2 st2,
      computeNode execDemo fuel gOne "n" stInit = .ok (r, g2, st2) ∧
      execCount st2.execLog "n" = execCount stInit.execLog "n" + 1 ∧
      ∀ fuel2, computeNode execDemo (fuel2 + 1) g2 "n" st2 = .ok (r, g2, st2)) :=
  ⟨⟨gOne_acyclic, gOne_wellFormed, by decide, rfl⟩,
    c4_idempotence execDemo gOne "n" stInit gOne_acyclic gOne_wellFormed
      (by decide) rfl⟩

/-- C5 (confirmed): for every acyclic graph satisfying the data-model
invariant that connection endpoints name present nodes, `computeGraph`
terminates successfully (for some fuel, so the unbounded original
terminates); its topological order lists exactly the node ids of the
graph, each once, with every node after all nodes it depends on; and the
returned mapping holds exactly one `ComputationResult` per node, keyed in
order. -/
theorem c5_computeGraph_acyclic
    (exec : GraphNode → List (String × Value) → List (String × Value))
    (g : Graph) (st : EngineState)
    (hacyc : Acyclic g) (hwf : WellFormed g) :
    ∃ fuel order results g2 st2,
      topologicalSort g fuel = .ok order ∧
      computeGraph exec fuel g st = .ok (results, g2, st2) ∧
      order.Nodup ∧
      (∀ z, z ∈ order ↔ z ∈ g.nodes.map GraphNode.id) ∧
      (∀ y ∈ order, ∀ d ∈ getDependencies g y,
        d ∈ order ∧ order.indexOf d < order.indexOf y) ∧
      results.map Prod.fst = order :=
  computeGraph_acyclic_complete exec g st hacyc hwf

/-- Witness for C5, at the one-node graph. -/
theorem c5_computeGraph_acyclic_witness :
    (Acyclic gOne ∧ WellFormed gOne) ∧
    (∃ fuel order results g2 st2,
      topologicalSort gOne fuel = .ok order ∧
      computeGraph execDemo fuel gOne stInit = .ok (results, g2, st2) ∧
      order.Nodup ∧
      (∀ z, z ∈ order ↔ z ∈ gOne.nodes.map GraphNode.id) ∧
      (∀ y ∈ order, ∀ d ∈ getDependencies gOne y,
        d ∈ order ∧ order.indexOf d < order.indexOf y) ∧
      results.map Prod.fst = order) :=
  ⟨⟨gOne_acyclic, gOne_wellFormed⟩,
    c5_computeGraph_acyclic execDemo gOne stInit gOne_acyclic gOne_wellFormed⟩

/-- C6 (counterexample): on the spec's own scenario graph, where two
connections feed `add` from the same source `input`, `getDependencies`
returns `input` twice — it does not collapse duplicates to one dependency
edge, contradicting the claim that no source id appears more than once. -/
theorem c6_counterexample :
    getDependencies gAdd "add" = ["input", "input"] ∧
    (getDependencies gAdd "add").count "input" = 2 ∧
    ¬ (getDependencies gAdd "add").Nodup := by
  decide

/-- C6 (amended): `getDependencies` returns the source ids of the
connections targeting the node, one per connection in declaration order: a
source appears once per connection (its multiplicity is the number of
connections from it to the node), and the set of ids returned is exactly
the set of distinct source-node ids feeding any input port of the node. -/
theorem c6_dependencies_amended :
    ∀ (g : Graph) (nodeId s : String),
      (s ∈ getDependencies g nodeId ↔
        ∃ c, c ∈ g.connections ∧ c.targetNodeId = nodeId ∧
          c.sourceNodeId = s) ∧
      (getDependencies g nodeId).count s =
        (g.connections.filter
          (fun c => c.targetNodeId == nodeId && c.sourceNodeId == s)).length :=
  fun g nodeId s =>
    ⟨mem_getDependencies g nodeId s, count_getDependencies g nodeId s⟩

/-- C7 (confirmed): among the connections feeding one input port of one
node, taken in declaration order, each deliverable connection overwrites
the previous ones, so the value handed to the executor for that port is
the value of the connection declared last (whenever that last connection
can deliver, e.g. when all of them can). -/
theorem c7_last_wins (g : Graph) (nodeId p : String)
    (store : List (String × ComputationResult)) (c : Connection)
    (hlast : ((g.connections.filter (fun c => c.targetNodeId == nodeId)).filter
        (fun c => c.targetPort == p)).getLast? = some c)
    (hc : (effVal store c).isSome) :
    lookupA (getNodeInputs g nodeId store) p = effVal store c :=
  getNodeInputs_last g nodeId p store c hlast hc

/-- Witness for C7, at the spec's two-connections-one-port scenario: the
port receives the value of the connection declared last (`out2 = 2`). -/
theorem c7_last_wins_witness :
    (((gPort.connections.filter (fun c => c.targetNodeId == "B")).filter
        (fun c => c.targetPort == "in1")).getLast? = some connP2 ∧
      (effVal storePort connP2).isSome ∧
      effVal storePort connP2 = some 2) ∧
    lookupA (getNodeInputs gPort "B" storePort) "in1" = effVal storePort connP2 :=
  ⟨⟨by decide, by decide, by decide⟩,
    c7_last_wins gPort "B" "in1" storePort connP2 (by decide) (by decide)⟩

/-- C8 (counterexample): a dangling connection source is not tolerated by
the computation paths: on the graph whose only connection names the absent
source `X`, a cold `computeNode` on `B` throws `NotFound X`, the
topological order emits the dangling id `X`, and `computeGraph` throws
`NotFound X` as well — contradicting the claim that the engine never fails
with `NotFound` on account of a dangling source id. -/
theorem c8_counterexample :
    findNode gDang "X" = none ∧
    computeNode execDemo 5 gDang "B" stInit = .err (.notFound "X") gDang stInit ∧
    topologicalSort gDang 5 = .ok ["X", "B"] ∧
    computeGraph execDemo 5 gDang stInit = .err (.notFound "X") gDang stInit := by
  decide

/-- C8 (amended): only the staleness oracle tolerates dangling references
and treats them as "no dependency": deleting every connection whose source
id names no node leaves `needsRecomputation`'s verdict unchanged on every
graph, node and cache.  (The recursive dependency computation of a stale
node and the topological sort do not share this tolerance: they fail with
`NotFound`, as the counterexample shows.) -/
theorem c8_dangling_amended :
    ∀ (g : Graph) (cache : List (String × ComputationResult))
      (node : GraphNode),
      needsRecomputation (pruneDangling g) cache node =
        needsRecomputation g cache node :=
  needsRecomputation_pruneDangling

/-- C9 (confirmed): a missing cache entry forces `needsRecomputation` to
answer `true`, so whenever it answers `false` the transient cache holds an
entry for the node; `computeNode` on a fresh node therefore returns that
cached entry immediately at any positive fuel — the durable-store fallback
and the trailing recursive self-call after the fresh branch are
unreachable, and `computeNode` never re-enters itself on a fresh node. -/
theorem c9_fresh_no_reentry :
    (∀ (g : Graph) (cache : List (String × ComputationResult))
      (node : GraphNode), lookupA cache node.id = none →
      needsRecomputation g cache node = true) ∧
    (∀ (exec : GraphNode → List (String × Value) → List (String × Value))
      (fuel : Nat) (g : Graph) (x : String) (st : EngineState)
      (node : GraphNode), findNode g x = some node →
      needsRecomputation g st.cache node = false →
      ∃ c, lookupA st.cache x = some c ∧
        computeNode exec (fuel + 1) g x st = .ok (c, g, st)) :=
  ⟨needsRecomputation_none,
    fun exec fuel g x st node hf hnr =>
      computeNode_fresh exec fuel g x st node hf hnr⟩

/-- Witness for C9, at the warm one-node graph. -/
theorem c9_fresh_no_reentry_witness :
    (lookupA ([] : List (String × ComputationResult)) nOne.id = none ∧
      needsRecomputation gOne [] nOne = true) ∧
    (findNode gOne "n" = some nOne ∧
      needsRecomputation gOne stWarmOne.cache nOne = false ∧
      ∃ c, lookupA stWarmOne.cache "n" = some c ∧
        computeNode execDemo 8 gOne "n" stWarmOne = .ok (c, gOne, stWarmOne)) :=
  ⟨⟨rfl, c9_fresh_no_reentry.1 gOne [] nOne rfl⟩,
    ⟨by decide, by decide,
      c9_fresh_no_reentry.2 execDemo 7 gOne "n" stWarmOne nOne (by decide)
        (by decide)⟩⟩

/-- C10 (confirmed): a successful `computeNode` changes the graph only by
stamping `lastComputed` on the nodes it executed (every logged node ends
with a stamp), leaving every node's id, version token, config and port
metadata and the graph's identity, name, timestamps and connection list
unchanged; `computeGraph` likewise; `clearCache` drops the transient cache
and touches nothing else (and never sees the graph at all). -/
theorem c10_frame :
    (∀ (exec : GraphNode → List (String × Value) → List (String × Value))
      (fuel : Nat) (g : Graph) (x : String) (st : EngineState)
      (r : ComputationResult) (g2 : Graph) (st2 : EngineState),
      computeNode exec fuel g x st = .ok (r, g2, st2) →
      (g2.id = g.id ∧ g2.name = g.name ∧ g2.createdAt = g.createdAt ∧
        g2.updatedAt = g.updatedAt ∧ g2.connections = g.connections ∧
        g2.nodes.map nodeShape = g.nodes.map nodeShape) ∧
      ∃ log, st2.execLog = st.execLog ++ log ∧
        ∀ p ∈ log, ∃ n, findNode g2 p.1 = some n ∧
          ∃ t, n.lastComputed = some t) ∧
    (∀ (exec : GraphNode → List (String × Value) → List (String × Value))
      (fuel : Nat) (g : Graph) (st : EngineState)
      (results : List (String × ComputationResult)) (g2 : Graph)
      (st2 : EngineState),
      computeGraph exec fuel g st = .ok (results, g2, st2) →
      (g2.id = g.id ∧ g2.name = g.name ∧ g2.createdAt = g.createdAt ∧
        g2.updatedAt = g.updatedAt ∧ g2.connections = g.connections ∧
        g2.nodes.map nodeShape = g.nodes.map nodeShape) ∧
      ∃ log, st2.execLog = st.execLog ++ log ∧
        ∀ p ∈ log, ∃ n, findNode g2 p.1 = some n ∧
          ∃ t, n.lastComputed = some t) ∧
    (∀ st : EngineState, (clearCache st).cache = [] ∧
      (clearCache st).store = st.store ∧
      (clearCache st).execLog = st.execLog ∧
      (clearCache st).now = st.now) := by
  refine ⟨?_, ?_, ?_⟩
  · intro exec fuel g x st r g2 st2 h
    obtain ⟨hshape, ⟨log, hlog, _, hlc⟩, _, _, _, _⟩ :=
      (computeNode_post_bundle exec fuel).1 _ _ _ _ _ _ h
    exact ⟨hshape, log, hlog, hlc⟩
  · intro exec fuel g st results g2 st2 h
    rw [computeGraph] at h
    cases htp : topologicalSort g fuel with
    | ok order =>
      rw [htp] at h
      obtain ⟨hshape, ⟨log, hlog, hlc⟩, _⟩ :=
        computeGraphGo_post exec fuel order g st [] results g2 st2 h
      exact ⟨hshape, log, hlog, hlc⟩
    | err e =>
      rw [htp] at h
      exact absurd h (by simp)
    | diverge =>
      rw [htp] at h
      exact absurd h (by simp)
  · intro st
    exact ⟨rfl, rfl, rfl, rfl⟩

/-- Witness for C10, at a concrete successful one-node run: the node's
shape survives and the single executed node ends stamped. -/
theorem c10_frame_witness :
    computeNode execDemo 5 gOne "n" stInit = .ok (rOne, gOneAfter, stOneAfter) ∧
    ((gOneAfter.id = gOne.id ∧ gOneAfter.name = gOne.name ∧
      gOneAfter.createdAt = gOne.createdAt ∧
      gOneAfter.updatedAt = gOne.updatedAt ∧
      gOneAfter.connections = gOne.connections ∧
      gOneAfter.nodes.map nodeShape = gOne.nodes.map nodeShape) ∧
     ∃ log, stOneAfter.execLog = stInit.execLog ++ log ∧
       ∀ p ∈ log, ∃ n, findNode gOneAfter p.1 = some n ∧
         ∃ t, n.lastComputed = some t) :=
  ⟨by decide,
    c10_frame.1 execDemo 5 gOne "n" stInit rOne gOneAfter stOneAfter (by decide)⟩

end K8v
